import Mathlib

/-!
# tinyasync: the intrusive timer queue, task posting and the run loop of the engine

A shallow embedding of `include/tinyasync/io_context.h`.

* Pointers to `timeNode` objects are addresses (`Nat`); the memory holding the
  nodes is a `Heap`, a total map from addresses to node contents.  Every member
  function that writes through a pointer becomes a function returning the new
  heap, with the writes performed one after the other in source order, so that
  aliasing between `this`, `prev`, `next` and `node` behaves as in the C++ code.
* `TimeStamp` is the tick count of `Clock::time_point` (nanoseconds for
  `std::chrono::high_resolution_clock` of libstdc++), a signed 64-bit value:
  an `Int`, with every conversion, product and sum the code computes reduced to
  the int64 range by `wrap64`.  `Clock::now()` is an input of the operation that
  reads it.
* `std::size_t` counters are natural numbers reduced modulo `2 ^ 64`.
* The engine state carries the trace of the calls the running thread makes on
  the queue lock, the wakeup handle, `epoll_wait` and the callbacks; the answers
  of the clock and of the system calls are inputs.
-/

namespace tinyasync

/-! ## Data model -/

/-- Tick count of a `Clock::time_point` (nanoseconds since the epoch). -/
abbrev TimeStamp := Int

/-- The value a signed 64-bit computation yields for the exact result `x`: `x`
itself when it lies in `[-2^63, 2^63)`, and otherwise `x` reduced modulo `2^64`
into that range (two's complement wrap-around); `2^63 = 9223372036854775808` and
`2^64 = 18446744073709551616`. -/
def wrap64 (x : Int) : Int :=
  (x + 9223372036854775808) % 18446744073709551616 - 9223372036854775808

/-- The members of `struct timeNode`; pointers are addresses. -/
structure timeNode where
  m_next : Nat
  m_prev : Nat
  m_post_task : Nat
  m_expire : TimeStamp
deriving DecidableEq, Repr

/-- The memory in which the `timeNode` objects live, indexed by address. -/
abbrev Heap := Nat → timeNode

/-- The write `a->m_next = v`. -/
def Heap.set_next (h : Heap) (a v : Nat) : Heap :=
  fun b => if b = a then { h b with m_next := v } else h b

/-- The write `a->m_prev = v`. -/
def Heap.set_prev (h : Heap) (a v : Nat) : Heap :=
  fun b => if b = a then { h b with m_prev := v } else h b

/-- The write `a->m_expire = v`. -/
def Heap.set_expire (h : Heap) (a : Nat) (v : TimeStamp) : Heap :=
  fun b => if b = a then { h b with m_expire := v } else h b

/-! ## `timeNode` member functions -/

/-- `timeNode::get_expire_time`. -/
def timeNode.get_expire_time (this : Nat) (h : Heap) : TimeStamp :=
  (h this).m_expire

/-- `timeNode::init`: `m_next = this; m_prev = this;`. -/
def timeNode.init (this : Nat) (h : Heap) : Heap :=
  let h1 := h.set_next this this
  h1.set_prev this this

/-- `timeNode::remove_self`: reads `prev` and `next` from the node, writes
`next->m_prev = prev`, then `prev->m_next = next`, and returns `prev == next`.
The node's own members are not written. -/
def timeNode.remove_self (this : Nat) (h : Heap) : Bool × Heap :=
  let prev := (h this).m_prev
  let next := (h this).m_next
  let h1 := h.set_prev next prev
  let h2 := h1.set_next prev next
  (decide (prev = next), h2)

/-- `timeNode::push`: links `node` right after `this`. -/
def timeNode.push (this node : Nat) (h : Heap) : Heap :=
  let next := (h this).m_next
  let h1 := h.set_next node next
  let h2 := h1.set_prev node this
  let h3 := h2.set_next this node
  h3.set_prev next node

/-- `timeNode::is_expire`: `m_expire < ts`. -/
def timeNode.is_expire (this : Nat) (ts : TimeStamp) (h : Heap) : Bool :=
  decide ((h this).m_expire < ts)

/-! ## `timeQueue<miliseconds>` -/

/-- A `timeQueue<miliseconds>` object: the template argument and the address of
its embedded sentinel node `m_head`.  The member `m_size` is never initialised,
read or written by any member function and is left out. -/
structure timeQueue where
  miliseconds : Nat
  m_head : Nat
deriving DecidableEq, Repr

/-- `_duration_ = MS(miliseconds)`: the count of milliseconds, which is the
`std::size_t` template argument converted to the int64 representation of
`std::chrono::milliseconds`. -/
def timeQueue._duration_ (q : timeQueue) : Int :=
  wrap64 (q.miliseconds : Int)

/-- The duration in clock ticks (nanoseconds) that `Clock::now() + _duration_`
adds: `_duration_` multiplied by 1000000 in int64. -/
def timeQueue.duration_ticks (q : timeQueue) : Int :=
  wrap64 (q._duration_ * 1000000)

/-- The constructor `timeQueue()`: `m_head.init()`. -/
def timeQueue.ctor (q : timeQueue) (h : Heap) : Heap :=
  timeNode.init q.m_head h

/-- `timeQueue::front`: `m_head.m_next`. -/
def timeQueue.front (q : timeQueue) (h : Heap) : Nat :=
  (h q.m_head).m_next

/-- `timeQueue::back`: `m_head.m_prev`. -/
def timeQueue.back (q : timeQueue) (h : Heap) : Nat :=
  (h q.m_head).m_prev

/-- `timeQueue::empty`: `m_head.m_next == &m_head`. -/
def timeQueue.empty (q : timeQueue) (h : Heap) : Bool :=
  decide ((h q.m_head).m_next = q.m_head)

/-- `timeQueue::push`: `node->m_expire = Clock::now() + _duration_;` (an int64
sum of nanoseconds) followed by `back()->push(node)`.  `now` is the value
returned by `Clock::now()`. -/
def timeQueue.push (q : timeQueue) (node : Nat) (now : TimeStamp) (h : Heap) : Heap :=
  let h1 := h.set_expire node (wrap64 (now + q.duration_ticks))
  timeNode.push (q.back h1) node h1

/-- `timeQueue::pop`: `if (!empty()) front()->remove_self();`. -/
def timeQueue.pop (q : timeQueue) (h : Heap) : Heap :=
  if q.empty h = false then (timeNode.remove_self (q.front h) h).2 else h

/-! ## Sequences of calls used in the statements -/

/-- Successive `push` calls, each with the node pushed and the clock value read
by that call. -/
def pushAll (q : timeQueue) : List (Nat × TimeStamp) → Heap → Heap
  | [], h => h
  | (n, t) :: rest, h => pushAll q rest (q.push n t h)

/-- Successive `remove_self` calls on the listed nodes, return values dropped. -/
def removeAll : List Nat → Heap → Heap
  | [], h => h
  | n :: rest, h => removeAll rest (timeNode.remove_self n h).2

/-- `k` repetitions of `front()` followed by `pop()`; returns the pointers that
`front()` gave, in order, and the final heap. -/
def drain (q : timeQueue) : Nat → Heap → List Nat × Heap
  | 0, h => ([], h)
  | k + 1, h =>
    let f := q.front h
    let r := drain q k (q.pop h)
    (f :: r.1, r.2)

/-- Memory in which every node is freshly constructed (`timeNode()` runs
`init()`), with a null task pointer and a zero expiry. -/
def freshHeap : Heap := fun a => ⟨a, a, 0, 0⟩

/-! ## Ring representation

`path f a l b` says that starting at `a` and applying `f` repeatedly visits the
elements of `l` one after the other and then arrives at `b`.  A heap holds the
ring `head, l` when the `m_next` links walk from the head through `l` back to
the head, the `m_prev` links walk the same nodes in the opposite direction, and
the head and the nodes of `l` are pairwise distinct. -/

/-- The `m_next` link read as a function on addresses. -/
def nextOf (h : Heap) : Nat → Nat := fun a => (h a).m_next

/-- The `m_prev` link read as a function on addresses. -/
def prevOf (h : Heap) : Nat → Nat := fun a => (h a).m_prev

/-- Walking along `f` from `a` visits exactly `l`, in order, and then reaches `b`. -/
def path (f : Nat → Nat) : Nat → List Nat → Nat → Prop
  | a, [], b => f a = b
  | a, x :: l, b => f a = x ∧ path f x l b

instance path.decide (f : Nat → Nat) : ∀ (l : List Nat) (a b : Nat), Decidable (path f a l b)
  | [], a, b => inferInstanceAs (Decidable (f a = b))
  | x :: l, a, b =>
    have := path.decide f l x b
    inferInstanceAs (Decidable (f a = x ∧ path f x l b))

/-- The last element of `a :: l`. -/
def lastFrom (a : Nat) : List Nat → Nat
  | [] => a
  | x :: l => lastFrom x l

/-- The heap contains the well-formed ring made of the sentinel `head` followed
by the nodes `l` (front to back). -/
def Ring (h : Heap) (head : Nat) (l : List Nat) : Prop :=
  (head :: l).Nodup ∧ path (nextOf h) head l head ∧ path (prevOf h) head l.reverse head

instance Ring.decide (h : Heap) (head : Nat) (l : List Nat) : Decidable (Ring h head l) :=
  inferInstanceAs (Decidable (_ ∧ _ ∧ _))

/-- A node whose two links point to itself (the state `init()` leaves). -/
def selfLoop (h : Heap) (n : Nat) : Prop :=
  (h n).m_next = n ∧ (h n).m_prev = n

instance selfLoop.decide (h : Heap) (n : Nat) : Decidable (selfLoop h n) :=
  inferInstanceAs (Decidable (_ ∧ _))

/-- The `m_expire` member read as a function on addresses. -/
def expireOf (h : Heap) : Nat → TimeStamp := fun a => (h a).m_expire

/-- The two nodes that `n` names as its neighbours are linked to each other
around it: `n->m_prev->m_next == n->m_next` and `n->m_next->m_prev == n->m_prev`.
This is the state in which `remove_self` leaves the node it was called on. -/
def bypassed (h : Heap) (n : Nat) : Prop :=
  (h (h n).m_prev).m_next = (h n).m_next ∧ (h (h n).m_next).m_prev = (h n).m_prev

instance bypassed.decide (h : Heap) (n : Nat) : Decidable (bypassed h n) :=
  inferInstanceAs (Decidable (_ ∧ _))

/-- The states of a `timeQueue` reached from the constructed, empty queue by
`push` of a node that is not linked in it, `pop`, and `remove_self` of a node
that is linked in it, the clock values read by successive `push` calls being
non-decreasing.  Besides the heap, the relation records the linked nodes front
to back, the clock value each node was pushed at, and the last clock value read. -/
inductive Reach (q : timeQueue) : Heap → List Nat → (Nat → TimeStamp) → TimeStamp → Prop
  | ctor (h0 : Heap) (pt : Nat → TimeStamp) (c : TimeStamp) :
      Reach q (q.ctor h0) [] pt c
  | push {h : Heap} {l : List Nat} {pt : Nat → TimeStamp} {c : TimeStamp}
      (n : Nat) (t : TimeStamp) :
      Reach q h l pt c → n ∉ q.m_head :: l → c ≤ t →
      Reach q (q.push n t h) (l ++ [n]) (Function.update pt n t) t
  | pop {h : Heap} {l : List Nat} {pt : Nat → TimeStamp} {c : TimeStamp} :
      Reach q h l pt c → Reach q (q.pop h) l.tail pt c
  | remove_self {h : Heap} {l : List Nat} {pt : Nat → TimeStamp} {c : TimeStamp} (n : Nat) :
      Reach q h l pt c → n ∈ l → Reach q (timeNode.remove_self n h).2 (l.erase n) pt c

/-! ## The engine state and `post_task` -/

/-- Modelled from the spec: the intrusive `Queue` of `ListNode`s, whose header is
not among the sources.  The spec gives `push` as appending at the tail and `pop`
as removing and returning the head, or a null result when there is none; the
queue is the list of the linked `ListNode` addresses, head first. -/
abbrev Queue := List Nat

/-- Modelled from the spec: `Queue::push`, appends the node at the tail. -/
def Queue.push (que : Queue) (node : Nat) : Queue := que ++ [node]

/-- Modelled from the spec: `Queue::pop`, removes and returns the head node, or
returns null (`none`) when the queue has none. -/
def Queue.pop (que : Queue) : Option Nat × Queue :=
  match que with
  | [] => (none, [])
  | node :: rest => (some node, rest)

/-- The byte offset of `m_node` in `PostTask`: it is the first member of a
standard-layout class. -/
def offsetof_PostTask_m_node : Nat := 0

/-- `IoCtxBase::get_node`: `&posttask->m_node`. -/
def IoCtxBase.get_node (posttask : Nat) : Nat := posttask + offsetof_PostTask_m_node

/-- `IoCtxBase::from_node_to_post_task`: the node address minus the offset. -/
def IoCtxBase.from_node_to_post_task (node : Nat) : Nat := node - offsetof_PostTask_m_node

/-- The members of `IoEvent` (an `epoll_event`) the engine reads: the event mask
and the pointer `data.ptr`, an address. -/
structure IoEvent where
  events : Nat
  data_ptr : Nat
deriving DecidableEq, Repr

/-- The calls a thread makes, in the order it makes them: on the queue lock, on
the wakeup handle, `epoll_wait`, the callback of a dequeued task, and
`callback->callback(evt)` on the callback record a returned event points to. -/
inductive Event where
  | lock
  | unlock
  | wakeup_a_thread
  | epoll_wait
  | task_callback (task : Nat)
  | io_callback (callback : Nat) (evt : IoEvent)
deriving DecidableEq, Repr

/-- The members of `IoCtx<CtxTrait>`.  `k_multiple_thread` is the trait constant;
the timer nodes live in `heap`; `trace` records the calls of `m_que_lock.lock()`,
`m_que_lock.unlock()`, `wakeup_a_thread()`, `epoll_wait` and of the callbacks
made so far by the thread. -/
structure IoCtx where
  k_multiple_thread : Bool
  m_thread_waiting : Nat
  m_task_queue_size : Nat
  m_task_queue : Queue
  m_time_queue : timeQueue
  m_abort_requested : Bool
  heap : Heap
  trace : List Event

/-- Modelled from the spec: `m_que_lock.lock()` on the spin lock guarding the task
queue, whose type is not among the sources.  The call is recorded in the trace;
waiting for another holder of the lock is not represented. -/
def IoCtx.lock (s : IoCtx) : IoCtx := { s with trace := s.trace ++ [Event.lock] }

/-- Modelled from the spec: `m_que_lock.unlock()` on the same spin lock; the call
is recorded in the trace. -/
def IoCtx.unlock (s : IoCtx) : IoCtx := { s with trace := s.trace ++ [Event.unlock] }

/-- `IoCtx::wakeup_a_thread`: one `epoll_ctl(EPOLL_CTL_MOD)` on the wakeup
handle, whose return value is the input `epoll_ctl`; a negative value makes the
function throw (`Except.error`, carrying the state at the throw). -/
def IoCtx.wakeup_a_thread (s : IoCtx) (epoll_ctl : Int) : Except IoCtx IoCtx :=
  let s1 := { s with trace := s.trace ++ [Event.wakeup_a_thread] }
  if epoll_ctl < 0 then Except.error s1 else Except.ok s1

/-- `IoCtx::post_task`.  `epoll_ctl` is the value the system call returns if
`wakeup_a_thread` is reached. -/
def IoCtx.post_task (s : IoCtx) (task : Nat) (epoll_ctl : Int) : Except IoCtx IoCtx :=
  if s.k_multiple_thread then
    let s1 := s.lock
    let s2 := { s1 with m_task_queue := s1.m_task_queue.push (IoCtxBase.get_node task) }
    let s3 := { s2 with m_task_queue_size := (s2.m_task_queue_size + 1) % 2 ^ 64 }
    let thread_wating := s3.m_thread_waiting
    let s4 := s3.unlock
    if thread_wating > 0 then
      s4.wakeup_a_thread epoll_ctl
    else
      Except.ok s4
  else
    Except.ok { s with m_task_queue := s.m_task_queue.push (IoCtxBase.get_node task) }

/-- `IoCtx::post_time_out`: `m_time_queue.push(tnode)`; `now` is the clock value
the push reads. -/
def IoCtx.post_time_out (s : IoCtx) (tnode : Nat) (now : TimeStamp) : IoCtx :=
  { s with heap := s.m_time_queue.push tnode now s.heap }

/-- The engine state a call ended in, whether it returned or threw. -/
def stateOf : Except IoCtx IoCtx → IoCtx
  | Except.ok s => s
  | Except.error s => s

/-- `IoCtx::request_abort`. -/
def IoCtx.request_abort (s : IoCtx) (epoll_ctl : Int) : Except IoCtx IoCtx :=
  if s.k_multiple_thread then
    let s1 := s.lock
    let s2 := { s1 with m_abort_requested := true }
    let thread_waiting := s2.m_thread_waiting
    let s3 := s2.unlock
    if thread_waiting ≠ 0 then
      s3.wakeup_a_thread epoll_ctl
    else
      Except.ok s3
  else
    Except.ok { s with m_abort_requested := true }

/-! ## The run loop

One pass through the body of `for (;;)` in `IoCtx::run` is `IoCtx.run_iteration`;
the loop repeats it until a pass ends in `break` or an exception leaves `run`.
What the environment does during a pass is an input (`Env`).  A callback is
code of the embedder: its invocation is recorded in the trace, and what it does
itself (it may post tasks or timers) is not part of `run`. -/

/-- What the environment answers during one pass: the value `Clock::now()`
returns, the value each `epoll_ctl` call returns (indexed by the length of the
trace when the call is made), and the result of `epoll_wait`: `none` when it
returns `-1`, otherwise the events it wrote to `events[0 .. nfds - 1]`. -/
structure Env where
  now : TimeStamp
  epoll_ctl : Nat → Int
  epoll_wait : Option (List IoEvent)

/-- How one pass through the loop body ends: the loop goes on (`next`), the pass
reached `break` and `run` returns (`returned`), an exception leaves `run`
(`thrown`), or the bound on the timer sweep was exhausted (`fuel`). -/
inductive Step where
  | next (s : IoCtx)
  | returned (s : IoCtx)
  | thrown (s : IoCtx)
  | fuel

/-- The engine state a pass ended in, if the pass ended. -/
def Step.state : Step → Option IoCtx
  | Step.next s => some s
  | Step.returned s => some s
  | Step.thrown s => some s
  | Step.fuel => none

/-- `CallbackGuard = (Callback *)8`. -/
def CallbackGuard : Nat := 8

/-- The timer sweep of `run` (the `while` loop over `m_time_queue`), with
`now_time = env.now` sampled before the loop.  Each unit of `fuel` pays for one
evaluation of the loop condition; `none` means the bound was exhausted.  An
exception thrown by `post_task` leaves the loop (`Except.error`). -/
def IoCtx.sweep : Nat → IoCtx → Env → Option (Except IoCtx IoCtx)
  | 0, _, _ => none
  | fuel + 1, s, env =>
    if s.m_time_queue.empty s.heap = false then
      let time_node := s.m_time_queue.front s.heap
      if timeNode.is_expire time_node env.now s.heap = false then
        some (Except.ok s)
      else
        let s1 := { s with heap := s.m_time_queue.pop s.heap }
        match s1.post_task (s1.heap time_node).m_post_task (env.epoll_ctl s1.trace.length) with
        | Except.error e => some (Except.error e)
        | Except.ok s2 =>
          let s3 := { s2 with heap := (timeNode.remove_self time_node s2.heap).2 }
          IoCtx.sweep fuel s3 env
    else
      some (Except.ok s)

/-- Inner loop of the scan after a wakeup event was seen first: the remaining
events are read until one with a pointer at or above the guard sets
`effective_event = 1` and breaks. -/
def scan_after_wakeup : List IoEvent → Nat → Nat
  | [], effective_event => effective_event
  | evt :: rest, effective_event =>
    if evt.data_ptr < CallbackGuard then scan_after_wakeup rest effective_event else 1

/-- Inner loop of the scan after an effective event was seen first: the
remaining events are read until one with a pointer below the guard sets
`wakeup_event = 1` and breaks. -/
def scan_after_effective : List IoEvent → Nat → Nat
  | [], wakeup_event => wakeup_event
  | evt :: rest, wakeup_event =>
    if evt.data_ptr < CallbackGuard then 1 else scan_after_effective rest wakeup_event

/-- The nested-loop overview of the returned events in `run`: returns
`(effective_event, wakeup_event)`.  Both branches of the outer loop body end in
`break`, so the body runs for the first event only, and not at all when
`nfds` is 0. -/
def scan : List IoEvent → Nat × Nat
  | [] => (0, 0)
  | evt :: rest =>
    if evt.data_ptr < CallbackGuard then
      (scan_after_wakeup rest 0, 1)
    else
      (1, scan_after_effective rest 0)

/-- The two-existentials reading of the overview: `effective_event` is 1 when
some event of the batch has its pointer at or above the guard and 0 otherwise,
`wakeup_event` is 1 when some event has its pointer below the guard and 0
otherwise. -/
def scan_naive (batch : List IoEvent) : Nat × Nat :=
  (if ∃ evt ∈ batch, CallbackGuard ≤ evt.data_ptr then 1 else 0,
   if ∃ evt ∈ batch, evt.data_ptr < CallbackGuard then 1 else 0)

/-- The multi-thread block after `epoll_wait` returned: the idle count is
decremented and the task count read under the lock, `nfds == -1` throws, the
events are scanned, and one more thread is woken if some thread is still idle
and either the abort flag is set or a wakeup event came with
`task_queue_size + effective_event > 1` (in `std::size_t` arithmetic). -/
def IoCtx.after_wait (s : IoCtx) (env : Env) : Except IoCtx IoCtx :=
  let s1 := s.lock
  let s2 := { s1 with m_thread_waiting := (s1.m_thread_waiting + (2 ^ 64 - 1)) % 2 ^ 64 }
  let task_queue_size := s2.m_task_queue_size
  let s3 := s2.unlock
  match env.epoll_wait with
  | none => Except.error s3
  | some batch =>
    let effective_event := (scan batch).1
    let wakeup_event := (scan batch).2
    if s3.m_thread_waiting ≠ 0 then
      if s3.m_abort_requested then
        s3.wakeup_a_thread (env.epoll_ctl s3.trace.length)
      else if wakeup_event ≠ 0 ∧ (task_queue_size + effective_event) % 2 ^ 64 > 1 then
        s3.wakeup_a_thread (env.epoll_ctl s3.trace.length)
      else
        Except.ok s3
    else
      Except.ok s3

/-- The dispatch loop over the returned events: `callback->callback(evt)` for
every event whose pointer is at or above the guard. -/
def IoCtx.dispatch (s : IoCtx) : List IoEvent → IoCtx
  | [] => s
  | evt :: rest =>
    let callback := evt.data_ptr
    if callback ≥ CallbackGuard then
      IoCtx.dispatch { s with trace := s.trace ++ [Event.io_callback callback evt] } rest
    else
      IoCtx.dispatch s rest

/-- The part of the loop body after the timer sweep: the task is popped, the
abort flag is read, and then the pass breaks, runs the task, or waits for
events and dispatches them. -/
def IoCtx.dequeue_and_run (s : IoCtx) (env : Env) : Step :=
  let node := s.m_task_queue.pop.1
  let s1 := { s with m_task_queue := s.m_task_queue.pop.2 }
  let abort_requested := s1.m_abort_requested
  if abort_requested then
    Step.returned (if s1.k_multiple_thread then s1.unlock else s1)
  else
    match node with
    | some node =>
      let s2 :=
        if s1.k_multiple_thread then
          IoCtx.unlock
            { s1 with m_task_queue_size := (s1.m_task_queue_size + (2 ^ 64 - 1)) % 2 ^ 64 }
        else s1
      let task := IoCtxBase.from_node_to_post_task node
      Step.next { s2 with trace := s2.trace ++ [Event.task_callback task] }
    | none =>
      let s2 :=
        if s1.k_multiple_thread then
          IoCtx.unlock { s1 with m_thread_waiting := (s1.m_thread_waiting + 1) % 2 ^ 64 }
        else s1
      let s3 := { s2 with trace := s2.trace ++ [Event.epoll_wait] }
      if s3.k_multiple_thread then
        match s3.after_wait env with
        | Except.error e => Step.thrown e
        | Except.ok s4 => Step.next (s4.dispatch (env.epoll_wait.getD []))
      else
        Step.next (s3.dispatch (env.epoll_wait.getD []))

/-- One pass through the body of `for (;;)` in `IoCtx::run`. -/
def IoCtx.run_iteration (fuel : Nat) (s : IoCtx) (env : Env) : Step :=
  let s1 := if s.k_multiple_thread then s.lock else s
  match s1.sweep fuel env with
  | none => Step.fuel
  | some (Except.error e) => Step.thrown e
  | some (Except.ok s2) => s2.dequeue_and_run env

/-- The calls `callback->callback(evt)` that the claim on event dispatch names
for a batch: one for each event whose pointer is at or above the guard, in the
order of the batch, each with its own event. -/
def dispatched (batch : List IoEvent) : List Event :=
  (batch.filter (fun evt => decide (CallbackGuard ≤ evt.data_ptr))).map
    (fun evt => Event.io_callback evt.data_ptr evt)

/-- The condition the idle-wakeup rule names, for the state at the return of
`epoll_wait` and the returned batch (empty when `epoll_wait` failed): the abort
flag is set, or the batch contains a wakeup event (pointer below the guard) and
`task_queue_size + effective_event > 1`, where `effective_event` is 1 when the
batch contains an event with a pointer at or above the guard and 0 otherwise. -/
def wakeupCondition (s : IoCtx) (env : Env) : Prop :=
  s.m_abort_requested = true ∨
    ((∃ evt ∈ env.epoll_wait.getD [], evt.data_ptr < CallbackGuard) ∧
      1 < s.m_task_queue_size +
        (if ∃ evt ∈ env.epoll_wait.getD [], CallbackGuard ≤ evt.data_ptr then 1 else 0))

/-! ## Reading a trace

The queue lock is a spin lock: a thread that calls `lock()` while it already
holds the lock waits for a release that only it could make, and never
proceeds.  The functions above record every `lock()` call as if it were granted;
`selfRelock` tells whether a trace contains such a call. -/

/-- Whether the thread holds the queue lock after the calls of the trace, given
whether it held it before. -/
def lockHeldFrom : Bool → List Event → Bool
  | held, [] => held
  | _, Event.lock :: rest => lockHeldFrom true rest
  | _, Event.unlock :: rest => lockHeldFrom false rest
  | held, _ :: rest => lockHeldFrom held rest

/-- Whether the thread holds the queue lock after the calls of the trace. -/
def lockHeld (trace : List Event) : Bool := lockHeldFrom false trace

/-- Whether some `lock()` call of the trace is made while the thread already
holds the lock. -/
def selfRelockFrom : Bool → List Event → Bool
  | _, [] => false
  | held, Event.lock :: rest => held || selfRelockFrom true rest
  | _, Event.unlock :: rest => selfRelockFrom false rest
  | held, _ :: rest => selfRelockFrom held rest

/-- Whether some `lock()` call of the trace is made while the thread already
holds the lock, for a thread that starts without it. -/
def selfRelock (trace : List Event) : Bool := selfRelockFrom false trace

/-- Whether the thread does not hold the queue lock at any task callback,
`epoll_wait` or I/O callback of the trace, given whether it held the lock
before. -/
def releasedAtCalls : Bool → List Event → Bool
  | _, [] => true
  | _, Event.lock :: rest => releasedAtCalls true rest
  | _, Event.unlock :: rest => releasedAtCalls false rest
  | held, Event.wakeup_a_thread :: rest => releasedAtCalls held rest
  | held, Event.epoll_wait :: rest => !held && releasedAtCalls held rest
  | held, Event.task_callback _ :: rest => !held && releasedAtCalls held rest
  | held, Event.io_callback _ _ :: rest => !held && releasedAtCalls held rest

/-- An event of the lock or of the wakeup handle. -/
def Event.isLockOrWakeup : Event → Bool
  | Event.lock => true
  | Event.unlock => true
  | Event.wakeup_a_thread => true
  | _ => false

/-- The I/O callback invocations of a trace, in order: the callback record and
the event passed to it. -/
def ioCallbacks : List Event → List (Nat × IoEvent)
  | [] => []
  | Event.io_callback callback evt :: rest => (callback, evt) :: ioCallbacks rest
  | _ :: rest => ioCallbacks rest

/-! ## Callback records -/

/-- The values a `Callback::CallbackPtr` takes: null, or the address of the
instantiation `invoke_impl_callback<SubclassCallback>`; a handler type is named
by a number. -/
inductive CallbackPtr where
  | null
  | invoke_impl_callback (SubclassCallback : Nat)
deriving DecidableEq, Repr

/-- The member of `struct Callback` (on unix): the function pointer. -/
structure Callback where
  m_callback : CallbackPtr
deriving DecidableEq, Repr

/-- The memory in which callback records live.  A handler object is identified
by the address of its `Callback` base; the `static_cast` between the two does
not change which object is meant. -/
abbrev CallbackHeap := Nat → Callback

/-- One call `subclass_this->on_callback(evt)`: the handler type, the object,
and the event. -/
structure OnCallback where
  SubclassCallback : Nat
  subclass_this : Nat
  evt : IoEvent
deriving DecidableEq, Repr

/-- The constructor `CallbackImplBase(std::nullptr_t)`: `m_callback = nullptr`. -/
def CallbackImplBase.ctor_null (this : Nat) (h : CallbackHeap) : CallbackHeap :=
  fun a => if a = this then { h a with m_callback := CallbackPtr.null } else h a

/-- The constructor `CallbackImplBase(SubclassCallback *)`: the pointer argument
is unnamed and unused, `m_callback = &invoke_impl_callback<SubclassCallback>`. -/
def CallbackImplBase.ctor (SubclassCallback : Nat) (this : Nat) (h : CallbackHeap) :
    CallbackHeap :=
  fun a =>
    if a = this then
      { h a with m_callback := CallbackPtr.invoke_impl_callback SubclassCallback }
    else h a

/-- `CallbackImplBase::invoke_impl_callback<SubclassCallback>`: casts `this_` to
the handler type and calls its `on_callback(evt)`; returns the calls made. -/
def CallbackImplBase.invoke_impl_callback (SubclassCallback : Nat) (this_ : Nat)
    (evt : IoEvent) : List OnCallback :=
  let subclass_this := this_
  [⟨SubclassCallback, subclass_this, evt⟩]

/-- `Callback::callback`: `this->m_callback(this, evt)`.  Returns the
`on_callback` calls made, or `none` when the pointer is null (the call is
undefined). -/
def Callback.callback (this : Nat) (evt : IoEvent) (h : CallbackHeap) :
    Option (List OnCallback) :=
  match (h this).m_callback with
  | CallbackPtr.null => none
  | CallbackPtr.invoke_impl_callback SubclassCallback =>
    some (CallbackImplBase.invoke_impl_callback SubclassCallback this evt)

/-- The task counter agrees with the task queue: `m_task_queue_size` is the
number of nodes linked in `m_task_queue`. -/
def counterInv (s : IoCtx) : Prop :=
  s.m_task_queue_size = s.m_task_queue.length

instance counterInv.decide (s : IoCtx) : Decidable (counterInv s) :=
  inferInstanceAs (Decidable (_ = _))

/-! ## Example states -/

/-- Memory in which every node `a` is freshly constructed and refers to the task
at address `100 + a`. -/
def taskHeap : Heap := fun a => ⟨a, a, 100 + a, 0⟩

/-- An engine with no queued task and no idle thread whose timer queue (sentinel
at address 0, duration 10 s as in `IoCtx`) holds the nodes pushed by `timers`. -/
def engineWithTimers (multiple_thread abort_requested : Bool)
    (timers : List (Nat × TimeStamp)) : IoCtx :=
  ⟨multiple_thread, 0, 0, [], ⟨10000, 0⟩, abort_requested,
    pushAll ⟨10000, 0⟩ timers (timeQueue.ctor ⟨10000, 0⟩ taskHeap), []⟩

/-- An engine without timers, with the given idle-thread count, task count and
queued tasks. -/
def engineWithTasks (multiple_thread abort_requested : Bool) (thread_waiting : Nat)
    (task_queue : List Nat) : IoCtx :=
  ⟨multiple_thread, thread_waiting, task_queue.length, task_queue, ⟨10000, 0⟩,
    abort_requested, timeQueue.ctor ⟨10000, 0⟩ taskHeap, []⟩

/-- An environment in which every `epoll_ctl` call succeeds. -/
def envOf (now : TimeStamp) (epoll_wait : Option (List IoEvent)) : Env :=
  ⟨now, fun _ => 0, epoll_wait⟩

/-! ## Link functions of an updated heap -/

theorem nextOf_set_next (h : Heap) (a v : Nat) :
    nextOf (h.set_next a v) = Function.update (nextOf h) a v := by
  funext b
  by_cases hb : b = a <;> simp [nextOf, Heap.set_next, Function.update, hb]

theorem nextOf_set_prev (h : Heap) (a v : Nat) : nextOf (h.set_prev a v) = nextOf h := by
  funext b
  by_cases hb : b = a <;> simp [nextOf, Heap.set_prev, hb]

theorem nextOf_set_expire (h : Heap) (a : Nat) (v : TimeStamp) :
    nextOf (h.set_expire a v) = nextOf h := by
  funext b
  by_cases hb : b = a <;> simp [nextOf, Heap.set_expire, hb]

theorem prevOf_set_prev (h : Heap) (a v : Nat) :
    prevOf (h.set_prev a v) = Function.update (prevOf h) a v := by
  funext b
  by_cases hb : b = a <;> simp [prevOf, Heap.set_prev, Function.update, hb]

theorem prevOf_set_next (h : Heap) (a v : Nat) : prevOf (h.set_next a v) = prevOf h := by
  funext b
  by_cases hb : b = a <;> simp [prevOf, Heap.set_next, hb]

theorem prevOf_set_expire (h : Heap) (a : Nat) (v : TimeStamp) :
    prevOf (h.set_expire a v) = prevOf h := by
  funext b
  by_cases hb : b = a <;> simp [prevOf, Heap.set_expire, hb]

/-! ## Paths -/

theorem lastFrom_mem (l : List Nat) : ∀ a, lastFrom a l ∈ a :: l := by
  induction l with
  | nil => intro a; simp [lastFrom]
  | cons x l ih =>
    intro a
    simp only [lastFrom]
    exact List.mem_cons_of_mem _ (ih x)

theorem lastFrom_append_singleton (l : List Nat) : ∀ a y, lastFrom a (l ++ [y]) = y := by
  induction l with
  | nil => intro a y; simp [lastFrom]
  | cons x l ih => intro a y; simpa [lastFrom] using ih x y

theorem headD_reverse (l : List Nat) : ∀ a, l.reverse.headD a = lastFrom a l := by
  induction l using List.reverseRecOn with
  | nil => intro a; simp [lastFrom]
  | append_singleton l y _ => intro a; simp [lastFrom_append_singleton]

theorem lastFrom_reverse (l : List Nat) (a : Nat) : lastFrom a l.reverse = l.headD a := by
  have := headD_reverse l.reverse a
  simpa using this.symm

theorem path_congr {f g : Nat → Nat} : ∀ (l : List Nat) (a b : Nat),
    (∀ x ∈ a :: l, f x = g x) → path f a l b → path g a l b := by
  intro l
  induction l with
  | nil =>
    intro a b hfg hp
    simp only [path] at hp ⊢
    rw [← hfg a (by simp)]; exact hp
  | cons x l ih =>
    intro a b hfg hp
    simp only [path] at hp ⊢
    refine ⟨by rw [← hfg a (by simp)]; exact hp.1, ih x b ?_ hp.2⟩
    intro y hy
    exact hfg y (List.mem_cons_of_mem _ hy)

theorem path_headD {f : Nat → Nat} {a b : Nat} {l : List Nat} (hp : path f a l b) :
    f a = l.headD b := by
  cases l with
  | nil => simpa [path] using hp
  | cons x l => simpa [path] using hp.1

theorem path_lastFrom {f : Nat → Nat} : ∀ (l : List Nat) (a b : Nat),
    path f a l b → f (lastFrom a l) = b := by
  intro l
  induction l with
  | nil => intro a b hp; simpa [path, lastFrom] using hp
  | cons x l ih => intro a b hp; exact ih x b hp.2

theorem path_snoc {f : Nat → Nat} : ∀ (l : List Nat) (a y b : Nat),
    path f a (l ++ [y]) b ↔ path f a l y ∧ f y = b := by
  intro l
  induction l with
  | nil => intro a y b; simp [path]
  | cons x l ih => intro a y b; simp [path, ih, and_assoc]

theorem path_mid {f : Nat → Nat} : ∀ (l1 : List Nat) (a n b : Nat) (l2 : List Nat),
    path f a (l1 ++ n :: l2) b ↔ path f a l1 n ∧ path f n l2 b := by
  intro l1
  induction l1 with
  | nil => intro a n b l2; simp [path]
  | cons x l ih => intro a n b l2; simp [path, ih, and_assoc]

theorem path_retarget {f : Nat → Nat} : ∀ (l : List Nat) (a b c : Nat),
    (a :: l).Nodup → path f a l b → path (Function.update f (lastFrom a l) c) a l c := by
  intro l
  induction l with
  | nil => intro a b c _ _; simp [path, lastFrom]
  | cons x l ih =>
    intro a b c hnd hp
    simp only [path, lastFrom] at hp ⊢
    have hne : a ≠ lastFrom x l := by
      intro h
      have := lastFrom_mem l x
      rw [← h] at this
      exact (List.nodup_cons.mp hnd).1 this
    refine ⟨by rw [Function.update_noteq hne]; exact hp.1, ih x b c (List.nodup_cons.mp hnd).2 hp.2⟩

theorem path_erase_mid {f : Nat → Nat} : ∀ (l1 : List Nat) (a n b : Nat) (l2 : List Nat),
    (a :: (l1 ++ n :: l2)).Nodup → path f a (l1 ++ n :: l2) b →
    path (Function.update f (lastFrom a l1) (f n)) a (l1 ++ l2) b := by
  intro l1
  induction l1 with
  | nil =>
    intro a n b l2 hnd hp
    simp only [List.nil_append, path, lastFrom] at hp ⊢
    have hnd2 := List.nodup_cons.mp hnd
    cases l2 with
    | nil =>
      simp only [path] at hp ⊢
      simpa using hp.2
    | cons y l2 =>
      simp only [path] at hp ⊢
      refine ⟨by simpa using hp.2.1, path_congr l2 y b ?_ hp.2.2⟩
      intro z hz
      have hza : z ≠ a := by
        rintro rfl
        exact hnd2.1 (List.mem_cons_of_mem _ hz)
      rw [Function.update_noteq hza]
  | cons c l1 ih =>
    intro a n b l2 hnd hp
    simp only [List.cons_append, path, lastFrom] at hp ⊢
    have hnd2 := List.nodup_cons.mp hnd
    have hne : a ≠ lastFrom c l1 := by
      intro h
      have hm := lastFrom_mem l1 c
      rw [← h] at hm
      apply hnd2.1
      rcases List.mem_cons.mp hm with h1 | h1
      · rw [h1]; simp
      · exact List.mem_cons_of_mem _ (List.mem_append_left _ h1)
    exact ⟨by rw [Function.update_noteq hne]; exact hp.1, ih c n b l2 hnd2.2 hp.2⟩

theorem path_restart {f : Nat → Nat} (l : List Nat) (a n b : Nat)
    (hn : n ∉ l) (hp : path f a l b) :
    path (Function.update f n (f a)) n l b := by
  cases l with
  | nil => simpa [path] using hp
  | cons y l =>
    simp only [path] at hp ⊢
    refine ⟨by simpa using hp.1, path_congr l y b ?_ hp.2⟩
    intro z hz
    have hzn : z ≠ n := by
      rintro rfl
      exact hn hz
    rw [Function.update_noteq hzn]

/-- A path that stays inside distinct nodes and avoids its end point is
determined by the link function: the ring contents are unique. -/
theorem path_unique {f : Nat → Nat} : ∀ (l l2 : List Nat) (a b : Nat),
    b ∉ l → b ∉ l2 → path f a l b → path f a l2 b → l = l2 := by
  intro l
  induction l with
  | nil =>
    intro l2 a b _ hb2 hp hp2
    cases l2 with
    | nil => rfl
    | cons y l2 =>
      simp only [path] at hp hp2
      exact absurd (by rw [← hp2.1, hp]; simp) hb2
  | cons x l ih =>
    intro l2 a b hb hb2 hp hp2
    cases l2 with
    | nil =>
      simp only [path] at hp hp2
      exact absurd (by rw [← hp.1, hp2]; simp) hb
    | cons y l2 =>
      simp only [path] at hp hp2
      have hxy : x = y := by rw [← hp.1, hp2.1]
      subst hxy
      rw [ih l2 x b (fun h => hb (List.mem_cons_of_mem _ h))
        (fun h => hb2 (List.mem_cons_of_mem _ h)) hp.2 hp2.2]

/-! ## The ring under the queue operations -/

theorem ring_unique {h : Heap} {head : Nat} {l l2 : List Nat}
    (h1 : Ring h head l) (h2 : Ring h head l2) : l = l2 :=
  path_unique l l2 head head (List.nodup_cons.mp h1.1).1 (List.nodup_cons.mp h2.1).1 h1.2.1 h2.2.1

theorem ring_ctor (q : timeQueue) (h : Heap) : Ring (q.ctor h) q.m_head [] := by
  simp [Ring, path, timeQueue.ctor, timeNode.init, nextOf, prevOf, Heap.set_next, Heap.set_prev]

theorem ring_front {q : timeQueue} {h : Heap} {l : List Nat} (hr : Ring h q.m_head l) :
    q.front h = l.headD q.m_head :=
  path_headD hr.2.1

theorem ring_back {q : timeQueue} {h : Heap} {l : List Nat} (hr : Ring h q.m_head l) :
    q.back h = lastFrom q.m_head l := by
  have := path_headD hr.2.2
  rw [headD_reverse] at this
  exact this

theorem ring_empty {q : timeQueue} {h : Heap} {l : List Nat} (hr : Ring h q.m_head l) :
    q.empty h = true ↔ l = [] := by
  have hf := ring_front hr
  unfold timeQueue.front at hf
  unfold timeQueue.empty
  rw [hf]
  cases l with
  | nil => simp
  | cons x l =>
    have hx : x ≠ q.m_head := by
      rintro rfl
      exact (List.nodup_cons.mp hr.1).1 (by simp)
    simp [hx]

theorem nextOf_push (this node : Nat) (h : Heap) :
    nextOf (timeNode.push this node h)
      = Function.update (Function.update (nextOf h) node (h this).m_next) this node := by
  simp only [timeNode.push, nextOf_set_next, nextOf_set_prev]

theorem prevOf_push (this node : Nat) (h : Heap) :
    prevOf (timeNode.push this node h)
      = Function.update (Function.update (prevOf h) node this) (h this).m_next node := by
  simp only [timeNode.push, prevOf_set_next, prevOf_set_prev]

theorem nextOf_remove_self (n : Nat) (h : Heap) :
    nextOf (timeNode.remove_self n h).2
      = Function.update (nextOf h) (h n).m_prev (h n).m_next := by
  simp only [timeNode.remove_self, nextOf_set_next, nextOf_set_prev]

theorem prevOf_remove_self (n : Nat) (h : Heap) :
    prevOf (timeNode.remove_self n h).2
      = Function.update (prevOf h) (h n).m_next (h n).m_prev := by
  simp only [timeNode.remove_self, prevOf_set_next, prevOf_set_prev]

/-- Pushing a node that is not in the ring appends it at the back. -/
theorem ring_push {q : timeQueue} {h : Heap} {l : List Nat} (n : Nat) (t : TimeStamp)
    (hr : Ring h q.m_head l) (hn : n ∉ q.m_head :: l) :
    Ring (q.push n t h) q.m_head (l ++ [n]) := by
  obtain ⟨hnd, hnext, hprev⟩ := hr
  have hnd2 := List.nodup_cons.mp hnd
  have hnh : n ≠ q.m_head := fun e => hn (by rw [e]; simp)
  have hnl : n ∉ l := fun e => hn (List.mem_cons_of_mem _ e)
  -- the back of the queue and its successor
  have hback : (h q.m_head).m_prev = lastFrom q.m_head l := by
    have := path_headD hprev
    rw [headD_reverse] at this
    exact this
  have hbn : (h (lastFrom q.m_head l)).m_next = q.m_head := path_lastFrom l _ _ hnext
  have hnb : n ≠ lastFrom q.m_head l := fun e => hn (by rw [e]; exact lastFrom_mem l _)
  have hb1 : q.back (h.set_expire n (wrap64 (t + q.duration_ticks))) = lastFrom q.m_head l := by
    have : prevOf (h.set_expire n (wrap64 (t + q.duration_ticks))) q.m_head = prevOf h q.m_head := by
      rw [prevOf_set_expire]
    simpa [timeQueue.back, prevOf, hback] using this
  have hb2 : ((h.set_expire n (wrap64 (t + q.duration_ticks))) (lastFrom q.m_head l)).m_next = q.m_head := by
    have : nextOf (h.set_expire n (wrap64 (t + q.duration_ticks))) (lastFrom q.m_head l)
        = nextOf h (lastFrom q.m_head l) := by rw [nextOf_set_expire]
    simpa [nextOf, hbn] using this
  refine ⟨?_, ?_, ?_⟩
  · rw [List.nodup_cons]
    refine ⟨?_, ?_⟩
    · simp only [List.mem_append, List.mem_singleton, not_or]
      exact ⟨hnd2.1, fun e => hnh e.symm⟩
    · exact List.Nodup.append hnd2.2 (List.nodup_singleton n) (by simpa using hnl)
  · unfold timeQueue.push
    simp only []
    rw [hb1, nextOf_push, hb2, nextOf_set_expire, path_snoc]
    refine ⟨?_, ?_⟩
    · apply path_retarget l q.m_head q.m_head n hnd
      apply path_congr l q.m_head q.m_head ?_ hnext
      intro x hx
      have hxn : x ≠ n := by
        rintro rfl
        exact hn hx
      rw [Function.update_noteq hxn]
    · rw [Function.update_noteq hnb, Function.update_same]
  · unfold timeQueue.push
    simp only []
    rw [hb1, prevOf_push, hb2, prevOf_set_expire, List.reverse_append]
    simp only [List.reverse_cons, List.reverse_nil, List.nil_append, List.singleton_append, path]
    refine ⟨by rw [Function.update_same], ?_⟩
    have hr1 := path_restart l.reverse q.m_head n q.m_head (by simpa using hnl) hprev
    have hpv : prevOf h q.m_head = lastFrom q.m_head l := hback
    rw [hpv] at hr1
    apply path_congr l.reverse n q.m_head ?_ hr1
    intro x hx
    have hxh : x ≠ q.m_head := by
      rintro rfl
      rcases List.mem_cons.mp hx with e | e
      · exact hnh e.symm
      · exact hnd2.1 (by simpa using e)
    rw [Function.update_noteq hxh]

/-- The shape of the links of a ring node: its `m_prev` is the node before it
(or the head) and its `m_next` the node after it (or the head). -/
theorem ring_links {h : Heap} {head : Nat} {l1 l2 : List Nat} {n : Nat}
    (hr : Ring h head (l1 ++ n :: l2)) :
    (h n).m_prev = lastFrom head l1 ∧ (h n).m_next = l2.headD head := by
  obtain ⟨_, hnext, hprev⟩ := hr
  constructor
  · have hrev : (l1 ++ n :: l2).reverse = l2.reverse ++ n :: l1.reverse := by simp
    rw [hrev, path_mid] at hprev
    have := path_headD hprev.2
    rw [headD_reverse] at this
    exact this
  · rw [path_mid] at hnext
    exact path_headD hnext.2

/-- Self-removal of a ring node, with the position of the node made explicit. -/
theorem ring_remove_mid {h : Heap} {head : Nat} {l1 l2 : List Nat} {n : Nat}
    (hr : Ring h head (l1 ++ n :: l2)) :
    Ring (timeNode.remove_self n h).2 head (l1 ++ l2) := by
  obtain ⟨hp, hx⟩ := ring_links hr
  obtain ⟨hnd, hnext, hprev⟩ := hr
  have hnd2 := List.nodup_cons.mp hnd
  have hrev : (l1 ++ n :: l2).reverse = l2.reverse ++ n :: l1.reverse := by simp
  refine ⟨?_, ?_, ?_⟩
  · rw [List.nodup_cons]
    refine ⟨?_, ?_⟩
    · intro hm
      apply hnd2.1
      rcases List.mem_append.mp hm with e | e
      · exact List.mem_append_left _ e
      · exact List.mem_append_right _ (List.mem_cons_of_mem _ e)
    · have hsub : List.Sublist (l1 ++ l2) (l1 ++ n :: l2) :=
        List.Sublist.append_left (List.sublist_cons_self n l2) l1
      exact List.Nodup.sublist hsub hnd2.2
  · rw [nextOf_remove_self, hp]
    exact path_erase_mid l1 head n head l2 hnd hnext
  · rw [prevOf_remove_self, hx, List.reverse_append, ← lastFrom_reverse]
    rw [hrev] at hprev
    apply path_erase_mid l2.reverse head n head l1.reverse ?_ hprev
    rw [← hrev, List.nodup_cons]
    exact ⟨fun e => hnd2.1 (List.mem_reverse.mp e), List.nodup_reverse.mpr hnd2.2⟩

/-- Self-removal of a ring node erases exactly that node. -/
theorem ring_remove {h : Heap} {head : Nat} {l : List Nat} {n : Nat}
    (hr : Ring h head l) (hn : n ∈ l) :
    Ring (timeNode.remove_self n h).2 head (l.erase n) := by
  obtain ⟨l1, l2, hl, hn1⟩ := List.eq_append_cons_of_mem hn
  subst hl
  have he : (l1 ++ n :: l2).erase n = l1 ++ l2 := by
    rw [List.erase_append_right _ hn1, List.erase_cons_head]
  rw [he]
  exact ring_remove_mid hr

/-- `pop()` removes the front node, and does nothing on an empty queue. -/
theorem ring_pop {q : timeQueue} {h : Heap} {l : List Nat} (hr : Ring h q.m_head l) :
    Ring (q.pop h) q.m_head l.tail := by
  cases l with
  | nil =>
    have he : q.empty h = true := (ring_empty hr).mpr rfl
    simpa [timeQueue.pop, he] using hr
  | cons x l =>
    have he : q.empty h = false := by
      cases hq : q.empty h with
      | false => rfl
      | true => exact absurd ((ring_empty hr).mp hq) (by simp)
    have hf : q.front h = x := by simpa using ring_front hr
    simp only [timeQueue.pop, he, hf, if_true, List.tail_cons]
    have := ring_remove hr (List.mem_cons_self x l)
    simpa using this

/-! ## Sequences of operations on a ring -/

theorem ring_of_selfLoop {h : Heap} {head : Nat} (hs : selfLoop h head) : Ring h head [] := by
  refine ⟨by simp, ?_, ?_⟩
  · simpa [path, nextOf] using hs.1
  · simpa [path, prevOf] using hs.2

theorem ring_pushAll (q : timeQueue) : ∀ (ns : List (Nat × TimeStamp)) (h : Heap) (l : List Nat),
    Ring h q.m_head l → (q.m_head :: (l ++ ns.map Prod.fst)).Nodup →
    Ring (pushAll q ns h) q.m_head (l ++ ns.map Prod.fst) := by
  intro ns
  induction ns with
  | nil => intro h l hr _; simpa [pushAll] using hr
  | cons nt ns ih =>
    intro h l hr hnd
    obtain ⟨n, t⟩ := nt
    simp only [pushAll, List.map_cons]
    have hassoc : l ++ n :: ns.map Prod.fst = (l ++ [n]) ++ ns.map Prod.fst := by simp
    simp only [List.map_cons] at hnd
    rw [hassoc] at hnd ⊢
    apply ih
    · apply ring_push n t hr
      have hnd2 := List.nodup_cons.mp hnd
      have hnd3 := List.nodup_append.mp hnd2.2
      have hnd4 := List.nodup_append.mp hnd3.1
      intro hm
      rcases List.mem_cons.mp hm with e | e
      · exact hnd2.1 (by rw [← e]; simp)
      · exact hnd4.2.2 e (List.mem_singleton_self n)
    · exact hnd

theorem ring_drain (q : timeQueue) : ∀ (l : List Nat) (h : Heap),
    Ring h q.m_head l →
    (drain q l.length h).1 = l ∧ Ring (drain q l.length h).2 q.m_head [] := by
  intro l
  induction l with
  | nil => intro h hr; exact ⟨rfl, hr⟩
  | cons x l ih =>
    intro h hr
    have hf : q.front h = x := by simpa using ring_front hr
    have hp := ring_pop hr
    simp only [List.tail_cons] at hp
    obtain ⟨h1, h2⟩ := ih (q.pop h) hp
    simp only [List.length_cons, drain]
    exact ⟨by rw [hf, h1], h2⟩

theorem ring_removeAll {head : Nat} : ∀ (rs : List Nat) (h : Heap) (l : List Nat),
    Ring h head l → rs.Nodup → (∀ x ∈ rs, x ∈ l) →
    Ring (removeAll rs h) head (l.diff rs) := by
  intro rs
  induction rs with
  | nil => intro h l hr _ _; simpa [removeAll] using hr
  | cons r rs ih =>
    intro h l hr hnd hsub
    have hnd2 := List.nodup_cons.mp hnd
    simp only [removeAll, List.diff_cons]
    apply ih _ _ (ring_remove hr (hsub r (List.mem_cons_self r rs))) hnd2.2
    intro x hx
    have hxr : x ≠ r := by
      rintro rfl
      exact hnd2.1 hx
    exact (List.mem_erase_of_ne hxr).mpr (hsub x (List.mem_cons_of_mem _ hx))

/-! ## Expiry stamps -/

/-- A value in the int64 range is not changed by the reduction. -/
theorem wrap64_of_range (x : Int) (hlow : -2 ^ 63 ≤ x) (hhigh : x < 2 ^ 63) :
    wrap64 x = x := by
  unfold wrap64
  omega

theorem expireOf_set_next (h : Heap) (a v : Nat) : expireOf (h.set_next a v) = expireOf h := by
  funext b
  by_cases hb : b = a <;> simp [expireOf, Heap.set_next, hb]

theorem expireOf_set_prev (h : Heap) (a v : Nat) : expireOf (h.set_prev a v) = expireOf h := by
  funext b
  by_cases hb : b = a <;> simp [expireOf, Heap.set_prev, hb]

theorem expireOf_set_expire (h : Heap) (a : Nat) (v : TimeStamp) :
    expireOf (h.set_expire a v) = Function.update (expireOf h) a v := by
  funext b
  by_cases hb : b = a <;> simp [expireOf, Heap.set_expire, Function.update, hb]

theorem expireOf_remove_self (n : Nat) (h : Heap) :
    expireOf (timeNode.remove_self n h).2 = expireOf h := by
  simp only [timeNode.remove_self, expireOf_set_next, expireOf_set_prev]

theorem expireOf_push (q : timeQueue) (n : Nat) (t : TimeStamp) (h : Heap) :
    expireOf (q.push n t h)
      = Function.update (expireOf h) n (wrap64 (t + q.duration_ticks)) := by
  simp only [timeQueue.push, timeNode.push, expireOf_set_next, expireOf_set_prev,
    expireOf_set_expire]

theorem expireOf_pop (q : timeQueue) (h : Heap) : expireOf (q.pop h) = expireOf h := by
  unfold timeQueue.pop
  split
  · exact expireOf_remove_self _ _
  · rfl

/-! ## Writes that store the value already present -/

theorem set_prev_same (h : Heap) (a v : Nat) (hv : (h a).m_prev = v) : h.set_prev a v = h := by
  funext b
  by_cases hb : b = a
  · subst hb
    simp only [Heap.set_prev, if_true]
    rw [← hv]
  · simp [Heap.set_prev, hb]

theorem set_next_same (h : Heap) (a v : Nat) (hv : (h a).m_next = v) : h.set_next a v = h := by
  funext b
  by_cases hb : b = a
  · subst hb
    simp only [Heap.set_next, if_true]
    rw [← hv]
  · simp [Heap.set_next, hb]

/-- When the neighbours named by `n` are already linked to each other,
`remove_self` writes the values that are there and the memory is unchanged. -/
theorem remove_self_of_bypassed (h : Heap) (n : Nat) (hb : bypassed h n) :
    (timeNode.remove_self n h).2 = h := by
  simp only [timeNode.remove_self]
  rw [set_prev_same h _ _ hb.2, set_next_same h _ _ hb.1]

/-- The node on which `remove_self` was called keeps the link values it had, and
the two neighbours it names are linked to each other afterwards. -/
theorem remove_self_links (h : Heap) (n : Nat) :
    ((timeNode.remove_self n h).2 n).m_next = (h n).m_next ∧
    ((timeNode.remove_self n h).2 n).m_prev = (h n).m_prev ∧
    bypassed (timeNode.remove_self n h).2 n := by
  have hN : ∀ a, ((timeNode.remove_self n h).2 a).m_next
      = Function.update (nextOf h) (h n).m_prev (h n).m_next a :=
    fun a => congrFun (nextOf_remove_self n h) a
  have hP : ∀ a, ((timeNode.remove_self n h).2 a).m_prev
      = Function.update (prevOf h) (h n).m_next (h n).m_prev a :=
    fun a => congrFun (prevOf_remove_self n h) a
  have e1 : ((timeNode.remove_self n h).2 n).m_next = (h n).m_next := by
    rw [hN, Function.update_apply]
    split_ifs <;> rfl
  have e2 : ((timeNode.remove_self n h).2 n).m_prev = (h n).m_prev := by
    rw [hP, Function.update_apply]
    split_ifs <;> rfl
  refine ⟨e1, e2, ?_, ?_⟩
  · rw [e1, e2, hN, Function.update_same]
  · rw [e1, e2, hP, Function.update_same]

theorem headD_mem (l : List Nat) (a : Nat) : l.headD a ∈ a :: l := by
  cases l <;> simp

theorem getElem_not_mem_take {p : List Nat} (hp : p.Nodup) (j : Nat) (hj : j < p.length) :
    p[j] ∉ p.take j := by
  have hsplit : p.take j ++ (p[j] :: p.drop (j + 1)) = p := by
    rw [← List.drop_eq_getElem_cons hj, List.take_append_drop]
  rw [← hsplit] at hp
  intro hm
  exact (List.nodup_append.mp hp).2.2 hm (List.mem_cons_self _ _)

/-- In a ring, the predecessor and the successor of a node coincide exactly when
the node is the only one. -/
theorem ring_neighbours_eq_iff {h : Heap} {head : Nat} {l1 l2 : List Nat} {n : Nat}
    (hr : Ring h head (l1 ++ n :: l2)) :
    (h n).m_prev = (h n).m_next ↔ l1 = [] ∧ l2 = [] := by
  obtain ⟨hp, hx⟩ := ring_links hr
  have hnd2 := List.nodup_cons.mp hr.1
  have hnd3 := List.nodup_append.mp hnd2.2
  rw [hp, hx]
  constructor
  · intro he
    cases l1 with
    | nil =>
      cases l2 with
      | nil => exact ⟨rfl, rfl⟩
      | cons y l2 =>
        simp only [lastFrom, List.headD_cons] at he
        exact absurd (by rw [he]; simp) hnd2.1
    | cons c l1 =>
      exfalso
      have hm1 : lastFrom head (c :: l1) ∈ c :: l1 := lastFrom_mem l1 c
      rw [he] at hm1
      rcases List.mem_cons.mp (headD_mem l2 head) with e | e
      · rw [e] at hm1
        exact hnd2.1 (List.mem_append_left _ hm1)
      · exact hnd3.2.2 hm1 (List.mem_cons_of_mem _ e)
  · rintro ⟨rfl, rfl⟩
    rfl

/-! ## The claims -/

/-- C1 (timer FIFO).  Pushing the distinct nodes `n1..nk` (none of them the
sentinel) into an empty queue, with any clock readings and nothing removed in
between: after each of the `k` pushes `front()` is `n1`; then `k` repetitions of
`front()` followed by `pop()` give `n1, n2, ..., nk` in that order, and the queue
is empty afterwards. -/
theorem C1_timer_fifo (q : timeQueue) (h : Heap) (ns : List (Nat × TimeStamp))
    (hempty : selfLoop h q.m_head) (hnd : (q.m_head :: ns.map Prod.fst).Nodup) :
    (∀ j, 1 ≤ j → j ≤ ns.length →
      some (q.front (pushAll q (ns.take j) h)) = (ns.map Prod.fst).head?) ∧
    (drain q ns.length (pushAll q ns h)).1 = ns.map Prod.fst ∧
    q.empty (drain q ns.length (pushAll q ns h)).2 = true := by
  have hr0 : Ring h q.m_head [] := ring_of_selfLoop hempty
  refine ⟨?_, ?_⟩
  · intro j h1 hj
    have hsub : List.Sublist (q.m_head :: (ns.take j).map Prod.fst)
        (q.m_head :: ns.map Prod.fst) :=
      List.Sublist.cons₂ _ (List.Sublist.map _ (List.take_sublist j ns))
    have hr := ring_pushAll q (ns.take j) h [] hr0 (by simpa using List.Nodup.sublist hsub hnd)
    rw [ring_front hr]
    cases ns with
    | nil => simp only [List.length_nil] at hj; omega
    | cons nt ns =>
      cases j with
      | zero => omega
      | succ j => simp
  · have hr := ring_pushAll q ns h [] hr0 (by simpa using hnd)
    simp only [List.nil_append] at hr
    have hd := ring_drain q (ns.map Prod.fst) _ hr
    rw [List.length_map] at hd
    exact ⟨hd.1, (ring_empty hd.2).mpr rfl⟩

/-- C2 (empty transition).  After pushing `N` distinct nodes into an empty
queue and calling `remove_self()` on them in any order `p`, `empty()` is false
after each number `j < N` of removals (in particular right after the pushes) and
true after all `N`. -/
theorem C2_empty_transition (q : timeQueue) (h : Heap) (ns : List (Nat × TimeStamp))
    (hempty : selfLoop h q.m_head) (hnd : (q.m_head :: ns.map Prod.fst).Nodup)
    (p : List Nat) (hp : List.Perm p (ns.map Prod.fst)) :
    (∀ j, j < p.length → q.empty (removeAll (p.take j) (pushAll q ns h)) = false) ∧
    q.empty (removeAll p (pushAll q ns h)) = true := by
  have hr0 : Ring h q.m_head [] := ring_of_selfLoop hempty
  have hr := ring_pushAll q ns h [] hr0 (by simpa using hnd)
  simp only [List.nil_append] at hr
  have hlnd : (ns.map Prod.fst).Nodup := (List.nodup_cons.mp hnd).2
  have hpnd : p.Nodup := hp.nodup_iff.mpr hlnd
  refine ⟨?_, ?_⟩
  · intro j hj
    have hrj := ring_removeAll (p.take j) _ _ hr
      (List.Nodup.sublist (List.take_sublist j p) hpnd)
      (fun x hx => hp.subset (List.mem_of_mem_take hx))
    cases he : q.empty (removeAll (p.take j) (pushAll q ns h)) with
    | false => rfl
    | true =>
      exfalso
      have hnil := (ring_empty hrj).mp he
      have hm : p[j] ∈ (ns.map Prod.fst).diff (p.take j) :=
        List.mem_diff_of_mem (hp.subset (List.getElem_mem hj)) (getElem_not_mem_take hpnd j hj)
      rw [hnil] at hm
      exact List.not_mem_nil _ hm
  · have hrp := ring_removeAll p _ _ hr hpnd (fun x hx => hp.subset hx)
    apply (ring_empty hrp).mpr
    apply List.eq_nil_iff_forall_not_mem.mpr
    intro a ha
    have := (List.Nodup.mem_diff_iff hlnd).mp ha
    exact this.2 (hp.symm.subset this.1)

/-- Witness of C1: three nodes pushed into a freshly constructed queue. -/
theorem C1_timer_fifo_witness :
    (drain ⟨3, 0⟩ 3 (pushAll ⟨3, 0⟩ [(1, 5), (2, 6), (3, 7)]
      (timeQueue.ctor ⟨3, 0⟩ freshHeap))).1 = [1, 2, 3] :=
  (C1_timer_fifo ⟨3, 0⟩ (timeQueue.ctor ⟨3, 0⟩ freshHeap) [(1, 5), (2, 6), (3, 7)]
    (by decide) (by decide)).2.1

/-- Witness of C2: three nodes pushed, then removed in the order 2, 3, 1. -/
theorem C2_empty_transition_witness :
    timeQueue.empty ⟨3, 0⟩ (removeAll [2, 3] (pushAll ⟨3, 0⟩ [(1, 5), (2, 6), (3, 7)]
      (timeQueue.ctor ⟨3, 0⟩ freshHeap))) = false ∧
    timeQueue.empty ⟨3, 0⟩ (removeAll [2, 3, 1] (pushAll ⟨3, 0⟩ [(1, 5), (2, 6), (3, 7)]
      (timeQueue.ctor ⟨3, 0⟩ freshHeap))) = true :=
  have hw := C2_empty_transition ⟨3, 0⟩ (timeQueue.ctor ⟨3, 0⟩ freshHeap)
    [(1, 5), (2, 6), (3, 7)] (by decide) (by decide) [2, 3, 1] (by decide)
  ⟨hw.1 2 (by decide), hw.2⟩

/-- C3, as stated, fails: with a duration of 3 ms and a push at clock value 0,
the node is not reported expired at `now = t + D`, although `now ≥ t + D`. -/
theorem C3_counterexample :
    0 < timeQueue.duration_ticks ⟨3, 0⟩ ∧
    (0 : TimeStamp) + timeQueue.duration_ticks ⟨3, 0⟩ ≤ 3000000 ∧
    timeNode.is_expire 1 3000000
      (timeQueue.push ⟨3, 0⟩ 1 0 (timeQueue.ctor ⟨3, 0⟩ freshHeap)) = false := by
  decide

/-- C3 (expiry), amended.  For a node pushed at clock value `t` into a queue
whose duration in clock ticks is `D > 0`, when `t + D` does not overflow the
signed 64-bit tick count: `is_expire(now)` is false for `now = t`, and it is true
exactly when `now > t + D`: true for every `now` strictly after `t + D`, still
false at `now = t + D`. -/
theorem C3_expiry (q : timeQueue) (h : Heap) (node : Nat) (t now : TimeStamp)
    (hD : 0 < q.duration_ticks) (hlow : -2 ^ 63 ≤ t) (hhigh : t + q.duration_ticks < 2 ^ 63) :
    timeNode.is_expire node t (q.push node t h) = false ∧
    (timeNode.is_expire node now (q.push node t h) = true ↔ t + q.duration_ticks < now) := by
  have he : ((q.push node t h) node).m_expire = t + q.duration_ticks := by
    have := congrFun (expireOf_push q node t h) node
    rw [wrap64_of_range _ (by linarith) hhigh] at this
    simpa [expireOf] using this
  unfold timeNode.is_expire
  rw [he]
  constructor
  · have hle : ¬ (t + q.duration_ticks < t) := by linarith
    simp [hle]
  · simp

/-- Witness of C3: duration 3 ms, push at clock value 0. -/
theorem C3_expiry_witness :
    timeNode.is_expire 1 0 (timeQueue.push ⟨3, 0⟩ 1 0 freshHeap) = false ∧
    (timeNode.is_expire 1 3000001 (timeQueue.push ⟨3, 0⟩ 1 0 freshHeap) = true ↔
      0 + timeQueue.duration_ticks ⟨3, 0⟩ < 3000001) :=
  C3_expiry ⟨3, 0⟩ freshHeap 1 0 3000001 (by decide) (by decide) (by decide)

/-- C4, as stated, fails: after `remove_self()` on the only node of a queue the
node's links still hold the address of the head, not its own. -/
theorem C4_counterexample :
    Ring (timeQueue.push ⟨3, 0⟩ 1 0 (timeQueue.ctor ⟨3, 0⟩ freshHeap)) 0 [1] ∧
    ((timeNode.remove_self 1
      (timeQueue.push ⟨3, 0⟩ 1 0 (timeQueue.ctor ⟨3, 0⟩ freshHeap))).2 1).m_next = 0 ∧
    ((timeNode.remove_self 1
      (timeQueue.push ⟨3, 0⟩ 1 0 (timeQueue.ctor ⟨3, 0⟩ freshHeap))).2 1).m_prev = 0 ∧
    ¬ selfLoop (timeNode.remove_self 1
      (timeQueue.push ⟨3, 0⟩ 1 0 (timeQueue.ctor ⟨3, 0⟩ freshHeap))).2 1 := by
  decide

/-- C4, amended.  For every node `n` linked in a queue, after `remove_self()` the
node is no longer enqueued (the ring holds the other nodes, and `n` is not among
them), and its own links are left as they were: `m_next` and `m_prev` keep the
values they had, which are the former neighbours and not the node itself. -/
theorem C4_remove_self_own_links (h : Heap) (head : Nat) (l1 l2 : List Nat) (n : Nat)
    (hr : Ring h head (l1 ++ n :: l2)) :
    Ring (timeNode.remove_self n h).2 head (l1 ++ l2) ∧ n ∉ l1 ++ l2 ∧
    ((timeNode.remove_self n h).2 n).m_next = (h n).m_next ∧
    ((timeNode.remove_self n h).2 n).m_prev = (h n).m_prev ∧
    ((timeNode.remove_self n h).2 n).m_next ≠ n ∧
    ((timeNode.remove_self n h).2 n).m_prev ≠ n := by
  obtain ⟨e1, e2, _⟩ := remove_self_links h n
  obtain ⟨hp, hx⟩ := ring_links hr
  have hnd2 := List.nodup_cons.mp hr.1
  have hnd3 := List.nodup_append.mp hnd2.2
  have hnh : n ≠ head := fun e => hnd2.1 (by rw [← e]; simp)
  have hn1 : n ∉ l1 := fun e => hnd3.2.2 e (List.mem_cons_self _ _)
  have hn2 : n ∉ l2 := (List.nodup_cons.mp hnd3.2.1).1
  refine ⟨ring_remove_mid hr, ?_, e1, e2, ?_, ?_⟩
  · intro hm
    rcases List.mem_append.mp hm with e | e
    · exact hn1 e
    · exact hn2 e
  · rw [e1, hx]
    intro e
    rcases List.mem_cons.mp (headD_mem l2 head) with e3 | e3
    · exact hnh (by rw [← e, e3])
    · rw [e] at e3; exact hn2 e3
  · rw [e2, hp]
    intro e
    rcases List.mem_cons.mp (lastFrom_mem l1 head) with e3 | e3
    · exact hnh (by rw [← e, e3])
    · rw [e] at e3; exact hn1 e3

/-- Witness of C4: the middle node of a three-node queue. -/
theorem C4_remove_self_own_links_witness :
    ((timeNode.remove_self 2 (pushAll ⟨3, 0⟩ [(1, 5), (2, 6), (3, 7)]
      (timeQueue.ctor ⟨3, 0⟩ freshHeap))).2 2).m_next ≠ 2 :=
  (C4_remove_self_own_links (pushAll ⟨3, 0⟩ [(1, 5), (2, 6), (3, 7)]
    (timeQueue.ctor ⟨3, 0⟩ freshHeap)) 0 [1] [3] 2 (by decide)).2.2.2.2.1

/-- C5, as stated, fails: nodes 1 and 2 are queued, `remove_self()` is called on
1, then on 2 (the queue is now empty), then on 1 again.  The last call writes the
head's `m_next`, which becomes the address of node 2, and the queue is no longer
empty. -/
theorem C5_counterexample :
    Ring (removeAll [1, 2] (pushAll ⟨3, 0⟩ [(1, 5), (2, 6)]
      (timeQueue.ctor ⟨3, 0⟩ freshHeap))) 0 [] ∧
    ((removeAll [1, 2] (pushAll ⟨3, 0⟩ [(1, 5), (2, 6)]
      (timeQueue.ctor ⟨3, 0⟩ freshHeap))) 0).m_next = 0 ∧
    ((removeAll [1, 2, 1] (pushAll ⟨3, 0⟩ [(1, 5), (2, 6)]
      (timeQueue.ctor ⟨3, 0⟩ freshHeap))) 0).m_next = 2 ∧
    timeQueue.empty ⟨3, 0⟩ (removeAll [1, 2, 1] (pushAll ⟨3, 0⟩ [(1, 5), (2, 6)]
      (timeQueue.ctor ⟨3, 0⟩ freshHeap))) = false := by
  decide

/-- C5, amended.  `remove_self()` leaves the node it was called on bypassed: the
two neighbours the node names are linked to each other.  A later `remove_self()`
on the same node, made in any state `h` in which the node is still bypassed,
changes no link of any node: the memory, hence the queue, is exactly as before
the call. -/
theorem C5_repeated_remove_self (h0 h : Heap) (n : Nat) (hlater : bypassed h n) :
    bypassed (timeNode.remove_self n h0).2 n ∧ (timeNode.remove_self n h).2 = h :=
  ⟨(remove_self_links h0 n).2.2, remove_self_of_bypassed h n hlater⟩

/-- Witness of C5: node 1 is removed from the queue 1, 2, node 3 is pushed, and
node 1 is removed again. -/
theorem C5_repeated_remove_self_witness :
    (timeNode.remove_self 1 (timeQueue.push ⟨3, 0⟩ 3 9 (timeNode.remove_self 1
      (pushAll ⟨3, 0⟩ [(1, 5), (2, 6)] (timeQueue.ctor ⟨3, 0⟩ freshHeap))).2)).2
    = timeQueue.push ⟨3, 0⟩ 3 9 (timeNode.remove_self 1
      (pushAll ⟨3, 0⟩ [(1, 5), (2, 6)] (timeQueue.ctor ⟨3, 0⟩ freshHeap))).2 :=
  (C5_repeated_remove_self freshHeap (timeQueue.push ⟨3, 0⟩ 3 9 (timeNode.remove_self 1
      (pushAll ⟨3, 0⟩ [(1, 5), (2, 6)] (timeQueue.ctor ⟨3, 0⟩ freshHeap))).2) 1
    (by decide)).2

/-- C6 (effect of self-removal).  If the queue holds `l1 ++ n :: l2` front to back
(`n` at the front when `l1` is empty, at the back when `l2` is empty, in the
middle otherwise), then after `remove_self()` on `n`, which takes no queue
argument, it holds `l1 ++ l2`, in the same relative order, and nothing else. -/
theorem C6_remove_self_effect (h : Heap) (head : Nat) (l1 l2 : List Nat) (n : Nat)
    (hr : Ring h head (l1 ++ n :: l2)) :
    Ring (timeNode.remove_self n h).2 head (l1 ++ l2) ∧
    ∀ l, Ring (timeNode.remove_self n h).2 head l → l = l1 ++ l2 :=
  ⟨ring_remove_mid hr, fun _ hl => ring_unique hl (ring_remove_mid hr)⟩

/-- Witness of C6: removing the back node of a three-node queue. -/
theorem C6_remove_self_effect_witness :
    Ring (timeNode.remove_self 3 (pushAll ⟨3, 0⟩ [(1, 5), (2, 6), (3, 7)]
      (timeQueue.ctor ⟨3, 0⟩ freshHeap))).2 0 [1, 2] :=
  (C6_remove_self_effect (pushAll ⟨3, 0⟩ [(1, 5), (2, 6), (3, 7)]
    (timeQueue.ctor ⟨3, 0⟩ freshHeap)) 0 [1, 2] [] 3 (by decide)).1

/-- C7 (return value of self-removal).  For a node `n` linked in a queue,
`remove_self()` returns true exactly when the queue is empty after the removal,
which is exactly when `n` was its only element; otherwise it returns false. -/
theorem C7_remove_self_return (q : timeQueue) (h : Heap) (l : List Nat) (n : Nat)
    (hr : Ring h q.m_head l) (hn : n ∈ l) :
    ((timeNode.remove_self n h).1 = true ↔ q.empty (timeNode.remove_self n h).2 = true) ∧
    ((timeNode.remove_self n h).1 = true ↔ l = [n]) := by
  obtain ⟨l1, l2, hl, _⟩ := List.eq_append_cons_of_mem hn
  subst hl
  have hiff := ring_neighbours_eq_iff hr
  have hret : (timeNode.remove_self n h).1 = true ↔ l1 = [] ∧ l2 = [] := by
    simp only [timeNode.remove_self, decide_eq_true_eq]
    exact hiff
  have hemp := ring_empty (ring_remove_mid hr)
  refine ⟨?_, ?_⟩
  · rw [hret, hemp, List.append_eq_nil]
  · rw [hret]
    constructor
    · rintro ⟨rfl, rfl⟩; rfl
    · intro e
      cases l1 with
      | nil => simpa using e
      | cons c l1 =>
        have hlen := congrArg List.length e
        simp at hlen

/-- Witness of C7: the only node of a queue, and the first of two. -/
theorem C7_remove_self_return_witness :
    ((timeNode.remove_self 1 (pushAll ⟨3, 0⟩ [(1, 5), (2, 6)]
      (timeQueue.ctor ⟨3, 0⟩ freshHeap))).1 = true ↔ [1, 2] = [1]) :=
  (C7_remove_self_return ⟨3, 0⟩ (pushAll ⟨3, 0⟩ [(1, 5), (2, 6)]
    (timeQueue.ctor ⟨3, 0⟩ freshHeap)) [1, 2] 1 (by decide) (by decide)).2

/-- C8 (removing an unlinked node).  For a node whose two links point to itself,
`remove_self()` leaves the whole memory unchanged, so no link of any node
changes and the node's links still point to itself; this is the state of a node
after `init()`, which the constructor runs. -/
theorem C8_remove_unlinked_noop (h : Heap) (n : Nat) (hs : selfLoop h n) :
    (timeNode.remove_self n h).2 = h ∧ selfLoop (timeNode.remove_self n h).2 n ∧
    (timeNode.remove_self n (timeNode.init n h)).2 = timeNode.init n h := by
  have hb : ∀ g : Heap, selfLoop g n → bypassed g n := by
    intro g hg
    unfold bypassed
    rw [hg.1, hg.2]
    exact ⟨hg.1, rfl⟩
  have hinit : selfLoop (timeNode.init n h) n := by
    simp [selfLoop, timeNode.init, Heap.set_next, Heap.set_prev]
  have e := remove_self_of_bypassed h n (hb h hs)
  refine ⟨e, by rw [e]; exact hs, remove_self_of_bypassed _ n (hb _ hinit)⟩

/-- Witness of C8: a freshly constructed node next to a queue holding two nodes. -/
theorem C8_remove_unlinked_noop_witness :
    (timeNode.remove_self 7 (pushAll ⟨3, 0⟩ [(1, 5), (2, 6)]
      (timeQueue.ctor ⟨3, 0⟩ freshHeap))).2
    = pushAll ⟨3, 0⟩ [(1, 5), (2, 6)] (timeQueue.ctor ⟨3, 0⟩ freshHeap) :=
  (C8_remove_unlinked_noop (pushAll ⟨3, 0⟩ [(1, 5), (2, 6)]
    (timeQueue.ctor ⟨3, 0⟩ freshHeap)) 7 (by decide)).1

/-- The invariant behind C9, in terms of the recorded push times. -/
theorem reach_invariant {q : timeQueue} {h : Heap} {l : List Nat} {pt : Nat → TimeStamp}
    {c : TimeStamp} (hreach : Reach q h l pt c) :
    Ring h q.m_head l ∧ (∀ n ∈ l, expireOf h n = wrap64 (pt n + q.duration_ticks)) ∧
    (l.map pt).Pairwise (fun a b => a ≤ b) ∧ (∀ n ∈ l, pt n ≤ c) := by
  induction hreach with
  | ctor h0 pt c =>
    exact ⟨ring_ctor q h0, by simp, by simp, by simp⟩
  | @push h l pt c n t _ hn hct ih =>
    obtain ⟨hr, hexp, hsorted, hle⟩ := ih
    have hnl : n ∉ l := fun e => hn (List.mem_cons_of_mem _ e)
    have hmap : (l ++ [n]).map (Function.update pt n t) = l.map pt ++ [t] := by
      rw [List.map_append]
      congr 1
      · apply List.map_congr_left
        intro m hm
        have hmn : m ≠ n := by
          rintro rfl
          exact hnl hm
        rw [Function.update_noteq hmn]
      · simp
    refine ⟨ring_push n t hr hn, ?_, ?_, ?_⟩
    · intro m hm
      rw [expireOf_push]
      by_cases hmn : m = n
      · subst hmn
        simp
      · rw [Function.update_noteq hmn, Function.update_noteq hmn]
        rcases List.mem_append.mp hm with e | e
        · exact hexp m e
        · exact absurd (List.mem_singleton.mp e) hmn
    · rw [hmap, List.pairwise_append]
      refine ⟨hsorted, List.pairwise_singleton _ _, ?_⟩
      intro a ha b hb
      obtain ⟨m, hm, rfl⟩ := List.mem_map.mp ha
      rw [List.mem_singleton.mp hb]
      exact le_trans (hle m hm) hct
    · intro m hm
      by_cases hmn : m = n
      · subst hmn
        simp
      · rw [Function.update_noteq hmn]
        rcases List.mem_append.mp hm with e | e
        · exact le_trans (hle m e) hct
        · exact absurd (List.mem_singleton.mp e) hmn
  | @pop h l pt c _ ih =>
    obtain ⟨hr, hexp, hsorted, hle⟩ := ih
    refine ⟨ring_pop hr, ?_, ?_, ?_⟩
    · intro m hm
      rw [expireOf_pop]
      exact hexp m (List.mem_of_mem_tail hm)
    · exact List.Pairwise.sublist (List.Sublist.map pt (List.tail_sublist l)) hsorted
    · intro m hm
      exact hle m (List.mem_of_mem_tail hm)
  | @remove_self h l pt c n _ hn ih =>
    obtain ⟨hr, hexp, hsorted, hle⟩ := ih
    refine ⟨ring_remove hr hn, ?_, ?_, ?_⟩
    · intro m hm
      rw [expireOf_remove_self]
      exact hexp m (List.mem_of_mem_erase hm)
    · exact List.Pairwise.sublist (List.Sublist.map pt (List.erase_sublist n l)) hsorted
    · intro m hm
      exact hle m (List.mem_of_mem_erase hm)

/-- C9 (insertion order equals expiry order).  In every state reached from the
constructed queue by `push` of nodes not linked in it (with non-decreasing clock
readings), `pop` and `remove_self` of linked nodes, and in which no linked
node's push time plus the fixed duration `D` (in clock ticks) overflows the
signed 64-bit tick count: the queue is a well-formed ring holding the recorded
nodes `l`, every linked node's `m_expire` is its push time plus `D`, the expiries
are non-decreasing from front to back, and `front()` has an expiry no later than
that of any linked node. -/
theorem C9_insertion_order_is_expiry_order (q : timeQueue) (h : Heap) (l : List Nat)
    (pt : Nat → TimeStamp) (c : TimeStamp) (hreach : Reach q h l pt c)
    (hrange : ∀ n ∈ l, -2 ^ 63 ≤ pt n + q.duration_ticks ∧ pt n + q.duration_ticks < 2 ^ 63) :
    Ring h q.m_head l ∧
    (∀ n ∈ l, (h n).m_expire = pt n + q.duration_ticks) ∧
    (l.map (fun n => (h n).m_expire)).Pairwise (fun a b => a ≤ b) ∧
    (∀ n ∈ l, q.front h ∈ l ∧ (h (q.front h)).m_expire ≤ (h n).m_expire) := by
  obtain ⟨hr, hexp, hsorted, _⟩ := reach_invariant hreach
  have hexp2 : ∀ n ∈ l, (h n).m_expire = pt n + q.duration_ticks := by
    intro n hn
    have h1 : (h n).m_expire = wrap64 (pt n + q.duration_ticks) := hexp n hn
    rw [h1, wrap64_of_range _ (hrange n hn).1 (hrange n hn).2]
  have hs2 : (l.map (fun n => (h n).m_expire)).Pairwise (fun a b => a ≤ b) := by
    rw [List.pairwise_map] at hsorted ⊢
    apply List.Pairwise.imp_of_mem ?_ hsorted
    intro a b ha hb hab
    rw [hexp2 a ha, hexp2 b hb]
    linarith
  refine ⟨hr, hexp2, hs2, ?_⟩
  intro n hn
  cases l with
  | nil => exact absurd hn (List.not_mem_nil n)
  | cons x l =>
    have hf : q.front h = x := by simpa using ring_front hr
    rw [hf]
    refine ⟨List.mem_cons_self x l, ?_⟩
    rcases List.mem_cons.mp hn with e | e
    · rw [e]
    · simp only [List.map_cons] at hs2
      exact List.rel_of_pairwise_cons hs2 (List.mem_map.mpr ⟨n, e, rfl⟩)

/-- Witness of C9: node 1 pushed at clock value 5, node 2 at clock value 7. -/
theorem C9_insertion_order_is_expiry_order_witness :
    ([1, 2].map (fun n =>
      (timeQueue.push ⟨3, 0⟩ 2 7 (timeQueue.push ⟨3, 0⟩ 1 5
        (timeQueue.ctor ⟨3, 0⟩ freshHeap)) n).m_expire)).Pairwise (fun a b => a ≤ b) :=
  (C9_insertion_order_is_expiry_order ⟨3, 0⟩ _ [1, 2] _ 7
    (Reach.push 2 7 (Reach.push 1 5 (Reach.ctor freshHeap (fun _ => 0) 0)
      (by decide) (by decide)) (by decide) (by decide)) (by decide)).2.2.1

/-- C10 (`post_task`).  With the counter below `SIZE_MAX`: in multi-thread mode
`post_task(task)` appends the task's node at the tail of the task queue,
increases `m_task_queue_size` by one, locks and unlocks the queue lock once, and
then calls `wakeup_a_thread` once if the idle-thread count read under the lock
is greater than 0 and not at all if it is 0, whether or not that call throws; it
changes nothing else.  In single-thread mode it returns the state with the node
appended to the task queue and nothing else changed: no lock call, no signal. -/
theorem C10_post_task (s : IoCtx) (task : Nat) (epoll_ctl : Int)
    (hsize : s.m_task_queue_size + 1 < 2 ^ 64) :
    (s.k_multiple_thread = true →
      (stateOf (s.post_task task epoll_ctl)).m_task_queue
        = s.m_task_queue ++ [IoCtxBase.get_node task] ∧
      (stateOf (s.post_task task epoll_ctl)).m_task_queue_size = s.m_task_queue_size + 1 ∧
      (stateOf (s.post_task task epoll_ctl)).trace
        = s.trace ++ [Event.lock, Event.unlock]
            ++ (if 0 < s.m_thread_waiting then [Event.wakeup_a_thread] else []) ∧
      (stateOf (s.post_task task epoll_ctl)).m_thread_waiting = s.m_thread_waiting ∧
      (stateOf (s.post_task task epoll_ctl)).m_abort_requested = s.m_abort_requested ∧
      (stateOf (s.post_task task epoll_ctl)).heap = s.heap) ∧
    (s.k_multiple_thread = false →
      s.post_task task epoll_ctl
        = Except.ok { s with m_task_queue := s.m_task_queue ++ [IoCtxBase.get_node task] }) := by
  refine ⟨?_, ?_⟩
  · intro hm
    by_cases hw : 0 < s.m_thread_waiting
    · by_cases he : epoll_ctl < 0 <;>
        simp [IoCtx.post_task, IoCtx.wakeup_a_thread, IoCtx.lock, IoCtx.unlock, Queue.push,
          stateOf, hm, hw, he] <;> omega
    · simp [IoCtx.post_task, IoCtx.lock, IoCtx.unlock, Queue.push, stateOf, hm, hw]
      omega
  · intro hm
    simp [IoCtx.post_task, Queue.push, hm]

/-- Witness of C10: a multi-thread engine with one idle thread and two queued
tasks receives a third task. -/
theorem C10_post_task_witness :
    (stateOf (IoCtx.post_task ⟨true, 1, 2, [16, 32], ⟨10000, 0⟩, false, freshHeap, []⟩
      48 0)).m_task_queue = [16, 32, 48] ∧
    (stateOf (IoCtx.post_task ⟨true, 1, 2, [16, 32], ⟨10000, 0⟩, false, freshHeap, []⟩
      48 0)).m_task_queue_size = 3 ∧
    (stateOf (IoCtx.post_task ⟨true, 1, 2, [16, 32], ⟨10000, 0⟩, false, freshHeap, []⟩
      48 0)).trace = [Event.lock, Event.unlock, Event.wakeup_a_thread] :=
  have hw := (C10_post_task ⟨true, 1, 2, [16, 32], ⟨10000, 0⟩, false, freshHeap, []⟩ 48 0
    (by decide)).1 rfl
  ⟨hw.1, hw.2.1, hw.2.2.1⟩

/-! ## The run loop: scan and dispatch -/

theorem scan_after_wakeup_eq (rest : List IoEvent) :
    scan_after_wakeup rest 0 = if ∃ evt ∈ rest, CallbackGuard ≤ evt.data_ptr then 1 else 0 := by
  induction rest with
  | nil => simp [scan_after_wakeup]
  | cons evt rest ih =>
    by_cases hlt : evt.data_ptr < CallbackGuard
    · have hnot : ¬ CallbackGuard ≤ evt.data_ptr := Nat.not_le.mpr hlt
      simp [scan_after_wakeup, hlt, hnot, ih]
    · have hge : CallbackGuard ≤ evt.data_ptr := Nat.le_of_not_lt hlt
      simp [scan_after_wakeup, hlt, hge]

theorem scan_after_effective_eq (rest : List IoEvent) :
    scan_after_effective rest 0
      = if ∃ evt ∈ rest, evt.data_ptr < CallbackGuard then 1 else 0 := by
  induction rest with
  | nil => simp [scan_after_effective]
  | cons evt rest ih =>
    by_cases hlt : evt.data_ptr < CallbackGuard
    · simp [scan_after_effective, hlt]
    · simp [scan_after_effective, hlt, ih]

/-- The nested loops compute the two existentials. -/
theorem scan_eq_naive (batch : List IoEvent) : scan batch = scan_naive batch := by
  cases batch with
  | nil => simp [scan, scan_naive]
  | cons evt rest =>
    by_cases hlt : evt.data_ptr < CallbackGuard
    · have hnot : ¬ CallbackGuard ≤ evt.data_ptr := Nat.not_le.mpr hlt
      simp [scan, scan_naive, hlt, hnot, scan_after_wakeup_eq]
    · have hge : CallbackGuard ≤ evt.data_ptr := Nat.le_of_not_lt hlt
      simp [scan, scan_naive, hlt, hge, scan_after_effective_eq]

theorem scan_naive_perm {batch batch2 : List IoEvent} (hp : List.Perm batch batch2) :
    scan_naive batch = scan_naive batch2 := by
  simp only [scan_naive, hp.mem_iff]

theorem dispatch_eq : ∀ (batch : List IoEvent) (s : IoCtx),
    s.dispatch batch = { s with trace := s.trace ++ dispatched batch } := by
  intro batch
  induction batch with
  | nil => intro s; simp [IoCtx.dispatch, dispatched]
  | cons evt rest ih =>
    intro s
    by_cases hge : CallbackGuard ≤ evt.data_ptr
    · simp [IoCtx.dispatch, dispatched, hge, ih]
    · simp [IoCtx.dispatch, dispatched, hge, ih]

theorem ioCallbacks_append (a b : List Event) :
    ioCallbacks (a ++ b) = ioCallbacks a ++ ioCallbacks b := by
  induction a with
  | nil => rfl
  | cons e a ih => cases e <;> simp [ioCallbacks, ih]

theorem ioCallbacks_dispatched (batch : List IoEvent) :
    ioCallbacks (dispatched batch)
      = (batch.filter (fun evt => decide (CallbackGuard ≤ evt.data_ptr))).map
          (fun evt => (evt.data_ptr, evt)) := by
  unfold dispatched
  induction batch.filter (fun evt => decide (CallbackGuard ≤ evt.data_ptr)) with
  | nil => rfl
  | cons e l ih => simp [ioCallbacks, ih]

theorem after_wait_state (s : IoCtx) (env : Env) :
    ∃ evs, stateOf (s.after_wait env)
        = { s with m_thread_waiting := (s.m_thread_waiting + (2 ^ 64 - 1)) % 2 ^ 64,
                   trace := s.trace ++ [Event.lock, Event.unlock] ++ evs } ∧
      (evs = [] ∨ evs = [Event.wakeup_a_thread]) ∧
      (evs = [Event.wakeup_a_thread] ↔
        ∃ batch, env.epoll_wait = some batch ∧
          (s.m_thread_waiting + (2 ^ 64 - 1)) % 2 ^ 64 ≠ 0 ∧
          (s.m_abort_requested = true ∨
            ((scan batch).2 ≠ 0 ∧ (s.m_task_queue_size + (scan batch).1) % 2 ^ 64 > 1))) := by
  cases hw : env.epoll_wait with
  | none =>
    refine ⟨[], ?_, Or.inl rfl, ?_⟩
    · simp [IoCtx.after_wait, IoCtx.lock, IoCtx.unlock, stateOf, hw]
    · simp
  | some batch =>
    by_cases h0 : (s.m_thread_waiting + (2 ^ 64 - 1)) % 2 ^ 64 = 0
    · have h0n := h0
      norm_num at h0n
      refine ⟨[], ?_, Or.inl rfl, ?_⟩
      · simp [IoCtx.after_wait, IoCtx.lock, IoCtx.unlock, stateOf, hw, h0n]
      · simp [h0n]
    · have h0n := h0
      norm_num at h0n
      by_cases ha : s.m_abort_requested = true
      · refine ⟨[Event.wakeup_a_thread], ?_, Or.inr rfl, ?_⟩
        · by_cases he : env.epoll_ctl (s.trace.length + 1 + 1) < 0 <;>
            simp [IoCtx.after_wait, IoCtx.lock, IoCtx.unlock, IoCtx.wakeup_a_thread, stateOf,
              hw, h0n, ha, he]
        · simp [h0n, ha]
      · by_cases hc : (scan batch).2 ≠ 0 ∧ (s.m_task_queue_size + (scan batch).1) % 2 ^ 64 > 1
        · have hcn := hc
          norm_num at hcn
          refine ⟨[Event.wakeup_a_thread], ?_, Or.inr rfl, ?_⟩
          · by_cases he : env.epoll_ctl (s.trace.length + 1 + 1) < 0 <;>
              simp [IoCtx.after_wait, IoCtx.lock, IoCtx.unlock, IoCtx.wakeup_a_thread, stateOf,
                hw, h0n, ha, he, hcn]
          · simp only [true_iff]
            exact ⟨batch, rfl, h0, Or.inr hc⟩
        · have hcn : ¬(¬(scan batch).2 = 0 ∧
              1 < (s.m_task_queue_size + (scan batch).1) % 18446744073709551616) := hc
          refine ⟨[], ?_, Or.inl rfl, ?_⟩
          · simp [IoCtx.after_wait, IoCtx.lock, IoCtx.unlock, stateOf, hw, h0n, ha, hcn]
          · constructor
            · intro h
              exact absurd h (by simp)
            · rintro ⟨b, hb, _, hor⟩
              have hbb : batch = b := by simpa using hb
              subst hbb
              rcases hor with h1 | h1
              · exact absurd h1 ha
              · exact absurd h1 hc

theorem dequeue_and_run_abort (s : IoCtx) (env : Env) (ha : s.m_abort_requested = true) :
    s.dequeue_and_run env
      = Step.returned
          { s with m_task_queue := s.m_task_queue.tail,
                   trace := s.trace ++ (if s.k_multiple_thread then [Event.unlock] else []) } := by
  have hpop : s.m_task_queue.pop.2 = s.m_task_queue.tail := by
    cases hq : s.m_task_queue <;> simp [Queue.pop]
  cases hm : s.k_multiple_thread <;>
    simp [IoCtx.dequeue_and_run, IoCtx.unlock, ha, hm, hpop]

theorem dequeue_and_run_task (s : IoCtx) (env : Env) (node : Nat) (rest : List Nat)
    (ha : s.m_abort_requested = false) (hq : s.m_task_queue = node :: rest) :
    s.dequeue_and_run env
      = Step.next
          { s with m_task_queue := rest,
                   m_task_queue_size :=
                     if s.k_multiple_thread then (s.m_task_queue_size + (2 ^ 64 - 1)) % 2 ^ 64
                     else s.m_task_queue_size,
                   trace := s.trace ++ (if s.k_multiple_thread then [Event.unlock] else [])
                     ++ [Event.task_callback (IoCtxBase.from_node_to_post_task node)] } := by
  cases hm : s.k_multiple_thread <;>
    simp [IoCtx.dequeue_and_run, IoCtx.unlock, Queue.pop, ha, hm, hq]

theorem dequeue_and_run_wait_multi (s : IoCtx) (env : Env)
    (ha : s.m_abort_requested = false) (hq : s.m_task_queue = [])
    (hm : s.k_multiple_thread = true) :
    s.dequeue_and_run env
      = match IoCtx.after_wait
          { s with m_task_queue := [], m_thread_waiting := (s.m_thread_waiting + 1) % 2 ^ 64,
                   trace := s.trace ++ [Event.unlock] ++ [Event.epoll_wait] } env with
        | Except.error e => Step.thrown e
        | Except.ok s4 => Step.next (s4.dispatch (env.epoll_wait.getD [])) := by
  unfold IoCtx.dequeue_and_run
  simp only [hq, Queue.pop, ha, hm, IoCtx.unlock, if_true, Bool.false_eq_true, if_false]

theorem dequeue_and_run_wait_single (s : IoCtx) (env : Env)
    (ha : s.m_abort_requested = false) (hq : s.m_task_queue = [])
    (hm : s.k_multiple_thread = false) :
    s.dequeue_and_run env
      = Step.next (IoCtx.dispatch
          { s with m_task_queue := [], trace := s.trace ++ [Event.epoll_wait] }
          (env.epoll_wait.getD [])) := by
  unfold IoCtx.dequeue_and_run
  simp only [hq, Queue.pop, ha, hm, IoCtx.unlock, if_true, Bool.false_eq_true, if_false]

/-- The shape of the trace of the waiting branch: no task is queued and the
abort flag is not set. -/
theorem dequeue_and_run_wait (s : IoCtx) (env : Env)
    (ha : s.m_abort_requested = false) (hq : s.m_task_queue = []) :
    ∃ evs, (evs = [] ∨ evs = [Event.wakeup_a_thread]) ∧
      ((∃ s', s.dequeue_and_run env = Step.next s' ∧
          s'.trace = s.trace
            ++ (if s.k_multiple_thread then
                  [Event.unlock, Event.epoll_wait, Event.lock, Event.unlock] ++ evs
                else [Event.epoll_wait])
            ++ dispatched (env.epoll_wait.getD [])) ∨
       (∃ s', s.k_multiple_thread = true ∧ s.dequeue_and_run env = Step.thrown s' ∧
          s'.trace = s.trace
            ++ ([Event.unlock, Event.epoll_wait, Event.lock, Event.unlock] ++ evs))) := by
  cases hm : s.k_multiple_thread with
  | false =>
    refine ⟨[], Or.inl rfl, Or.inl ⟨_, dequeue_and_run_wait_single s env ha hq hm, ?_⟩⟩
    simp [dispatch_eq]
  | true =>
    obtain ⟨evs, hst, hevs, _⟩ := after_wait_state
      { s with m_task_queue := [], m_thread_waiting := (s.m_thread_waiting + 1) % 2 ^ 64,
               trace := s.trace ++ [Event.unlock] ++ [Event.epoll_wait] } env
    refine ⟨evs, hevs, ?_⟩
    have hrun := dequeue_and_run_wait_multi s env ha hq hm
    cases haw : IoCtx.after_wait
      { s with m_task_queue := [], m_thread_waiting := (s.m_thread_waiting + 1) % 2 ^ 64,
               trace := s.trace ++ [Event.unlock] ++ [Event.epoll_wait] } env with
    | error e =>
      rw [haw] at hst hrun
      simp only [stateOf] at hst
      refine Or.inr ⟨e, rfl, hrun, ?_⟩
      rw [hst]; simp
    | ok s4 =>
      rw [haw] at hst hrun
      simp only [stateOf] at hst
      refine Or.inl ⟨s4.dispatch (env.epoll_wait.getD []), hrun, ?_⟩
      rw [dispatch_eq, hst]; simp

/-! ## The run loop: timer sweep -/

theorem post_task_frame (s : IoCtx) (task : Nat) (epoll_ctl : Int) :
    (stateOf (s.post_task task epoll_ctl)).k_multiple_thread = s.k_multiple_thread ∧
    (stateOf (s.post_task task epoll_ctl)).m_abort_requested = s.m_abort_requested ∧
    (stateOf (s.post_task task epoll_ctl)).heap = s.heap ∧
    (stateOf (s.post_task task epoll_ctl)).m_time_queue = s.m_time_queue ∧
    ∃ evs, (stateOf (s.post_task task epoll_ctl)).trace = s.trace ++ evs ∧
      ∀ e ∈ evs, e.isLockOrWakeup = true := by
  cases hm : s.k_multiple_thread with
  | false =>
    refine ⟨?_, ?_, ?_, ?_, [], ?_, ?_⟩ <;> simp [IoCtx.post_task, stateOf, hm]
  | true =>
    by_cases hw : 0 < s.m_thread_waiting
    · by_cases he : epoll_ctl < 0
      · refine ⟨?_, ?_, ?_, ?_, [Event.lock, Event.unlock, Event.wakeup_a_thread], ?_, ?_⟩ <;>
          simp [IoCtx.post_task, IoCtx.wakeup_a_thread, IoCtx.lock, IoCtx.unlock, stateOf, hm,
            hw, he, Event.isLockOrWakeup]
      · refine ⟨?_, ?_, ?_, ?_, [Event.lock, Event.unlock, Event.wakeup_a_thread], ?_, ?_⟩ <;>
          simp [IoCtx.post_task, IoCtx.wakeup_a_thread, IoCtx.lock, IoCtx.unlock, stateOf, hm,
            hw, he, Event.isLockOrWakeup]
    · refine ⟨?_, ?_, ?_, ?_, [Event.lock, Event.unlock], ?_, ?_⟩ <;>
        simp [IoCtx.post_task, IoCtx.lock, IoCtx.unlock, stateOf, hm, hw, Event.isLockOrWakeup]

/-- The sweep changes neither the mode nor the abort flag, and the calls it
makes are calls on the lock and on the wakeup handle only. -/
theorem sweep_frame (env : Env) : ∀ (fuel : Nat) (s : IoCtx) (r : Except IoCtx IoCtx),
    s.sweep fuel env = some r →
    (stateOf r).k_multiple_thread = s.k_multiple_thread ∧
    (stateOf r).m_abort_requested = s.m_abort_requested ∧
    ∃ evs, (stateOf r).trace = s.trace ++ evs ∧ ∀ e ∈ evs, e.isLockOrWakeup = true := by
  intro fuel
  induction fuel with
  | zero => intro s r h; simp [IoCtx.sweep] at h
  | succ fuel ih =>
    intro s r h
    unfold IoCtx.sweep at h
    split at h
    · simp only [] at h
      split at h
      · cases h
        exact ⟨rfl, rfl, [], by simp [stateOf], by simp⟩
      · obtain ⟨f1, f2, _, _, evs1, f5, f6⟩ := post_task_frame
          { s with heap := s.m_time_queue.pop s.heap }
          ((s.m_time_queue.pop s.heap) (s.m_time_queue.front s.heap)).m_post_task
          (env.epoll_ctl s.trace.length)
        split at h
        · rename_i e hpt
          cases h
          rw [hpt] at f1 f2 f5
          exact ⟨f1, f2, evs1, f5, f6⟩
        · rename_i s2 hpt
          rw [hpt] at f1 f2 f5
          obtain ⟨g1, g2, evs2, g3, g4⟩ := ih _ r h
          simp only [stateOf] at f1 f2 f5
          simp only [] at g1 g2 g3
          refine ⟨g1.trans f1, g2.trans f2, evs1 ++ evs2, ?_, ?_⟩
          · rw [g3, f5, List.append_assoc]
          · intro e he
            rcases List.mem_append.mp he with h1 | h1
            · exact f6 e h1
            · exact g4 e h1
    · cases h
      exact ⟨rfl, rfl, [], by simp [stateOf], by simp⟩

theorem set_next_post_task (h : Heap) (a v b : Nat) :
    ((h.set_next a v) b).m_post_task = (h b).m_post_task := by
  by_cases hb : b = a <;> simp [Heap.set_next, hb]

theorem set_prev_post_task (h : Heap) (a v b : Nat) :
    ((h.set_prev a v) b).m_post_task = (h b).m_post_task := by
  by_cases hb : b = a <;> simp [Heap.set_prev, hb]

theorem remove_self_fields (n : Nat) (h : Heap) (a : Nat) :
    ((timeNode.remove_self n h).2 a).m_expire = (h a).m_expire ∧
    ((timeNode.remove_self n h).2 a).m_post_task = (h a).m_post_task := by
  refine ⟨congrFun (expireOf_remove_self n h) a, ?_⟩
  simp only [timeNode.remove_self, set_next_post_task, set_prev_post_task]

/-- `pop()` followed by `remove_self()` on the node that was at the front removes
that node once: the second removal writes what is already there. -/
theorem pop_then_remove_self {q : timeQueue} {h : Heap} {x : Nat} {l : List Nat}
    (hr : Ring h q.m_head (x :: l)) :
    q.pop h = (timeNode.remove_self x h).2 ∧
    (timeNode.remove_self x (q.pop h)).2 = (timeNode.remove_self x h).2 := by
  have he : q.empty h = false := by
    cases hq : q.empty h with
    | false => rfl
    | true => exact absurd ((ring_empty hr).mp hq) (by simp)
  have hf : q.front h = x := by simpa using ring_front hr
  have hpop : q.pop h = (timeNode.remove_self x h).2 := by
    simp [timeQueue.pop, he, hf]
  refine ⟨hpop, ?_⟩
  rw [hpop]
  exact remove_self_of_bypassed _ x (remove_self_links h x).2.2

/-- One turn of the sweep in single-thread mode, when the front node is expired. -/
theorem sweep_single_step (env : Env) (fuel : Nat) (s : IoCtx) (x : Nat) (l : List Nat)
    (hm : s.k_multiple_thread = false) (hr : Ring s.heap s.m_time_queue.m_head (x :: l))
    (hx : timeNode.is_expire x env.now s.heap = true) :
    s.sweep (fuel + 1) env
      = IoCtx.sweep fuel
          { s with heap := (timeNode.remove_self x s.heap).2,
                   m_task_queue := s.m_task_queue ++ [IoCtxBase.get_node (s.heap x).m_post_task] }
          env := by
  have he : s.m_time_queue.empty s.heap = false := by
    cases hq : s.m_time_queue.empty s.heap with
    | false => rfl
    | true => exact absurd ((ring_empty hr).mp hq) (by simp)
  have hf : s.m_time_queue.front s.heap = x := by simpa using ring_front hr
  obtain ⟨hpop, hagain⟩ := pop_then_remove_self hr
  have hpt : ((timeNode.remove_self x s.heap).2 x).m_post_task = (s.heap x).m_post_task :=
    (remove_self_fields x s.heap x).2
  rw [IoCtx.sweep]
  simp only [he, hf, hx, hpop, IoCtx.post_task, hm, Queue.push, if_true, Bool.false_eq_true,
    if_false, hpt]
  rw [← hpop, hagain, hpop]
  simp

theorem is_expire_congr {h h2 : Heap} (n : Nat) (now : TimeStamp)
    (he : (h2 n).m_expire = (h n).m_expire) :
    timeNode.is_expire n now h2 = timeNode.is_expire n now h := by
  simp [timeNode.is_expire, he]

/-- The sweep in single-thread mode on a well-formed ring: with more fuel than
nodes it ends, having removed the longest run of expired nodes at the front and
appended their tasks, in order, to the task queue. -/
theorem sweep_single (env : Env) : ∀ (l : List Nat) (fuel : Nat) (s : IoCtx),
    s.k_multiple_thread = false → Ring s.heap s.m_time_queue.m_head l → l.length < fuel →
    ∃ s', s.sweep fuel env = some (Except.ok s') ∧
      Ring s'.heap s.m_time_queue.m_head
        (l.dropWhile (fun n => timeNode.is_expire n env.now s.heap)) ∧
      s'.m_task_queue = s.m_task_queue ++
        (l.takeWhile (fun n => timeNode.is_expire n env.now s.heap)).map
          (fun n => IoCtxBase.get_node (s.heap n).m_post_task) ∧
      (∀ a, (s'.heap a).m_expire = (s.heap a).m_expire ∧
        (s'.heap a).m_post_task = (s.heap a).m_post_task) ∧
      s'.trace = s.trace ∧ s'.k_multiple_thread = false ∧
      s'.m_time_queue = s.m_time_queue ∧ s'.m_abort_requested = s.m_abort_requested ∧
      s'.m_thread_waiting = s.m_thread_waiting ∧
      s'.m_task_queue_size = s.m_task_queue_size := by
  intro l
  induction l with
  | nil =>
    intro fuel s _ hr hfuel
    cases fuel with
    | zero => simp at hfuel
    | succ fuel =>
      have he : s.m_time_queue.empty s.heap = true := (ring_empty hr).mpr rfl
      refine ⟨s, ?_, by simpa using hr, by simp, fun a => ⟨rfl, rfl⟩, rfl, by assumption,
        rfl, rfl, rfl, rfl⟩
      rw [IoCtx.sweep]
      simp [he]
  | cons x l ih =>
    intro fuel s hm hr hfuel
    cases fuel with
    | zero => simp at hfuel
    | succ fuel =>
      have he : s.m_time_queue.empty s.heap = false := by
        cases hq : s.m_time_queue.empty s.heap with
        | false => rfl
        | true => exact absurd ((ring_empty hr).mp hq) (by simp)
      have hf : s.m_time_queue.front s.heap = x := by simpa using ring_front hr
      cases hx : timeNode.is_expire x env.now s.heap with
      | false =>
        refine ⟨s, ?_, by simpa [hx] using hr, by simp [hx], fun a => ⟨rfl, rfl⟩, rfl, hm,
          rfl, rfl, rfl, rfl⟩
        rw [IoCtx.sweep]
        simp [he, hf, hx]
      | true =>
        have hr2 : Ring (timeNode.remove_self x s.heap).2 s.m_time_queue.m_head l := by
          simpa using ring_remove hr (List.mem_cons_self x l)
        have hlen : l.length < fuel := by
          simp only [List.length_cons] at hfuel
          omega
        obtain ⟨s', h1, h2, h3, h4, h5, h6, h7, h8, h9, h10⟩ := ih fuel
          { s with heap := (timeNode.remove_self x s.heap).2,
                   m_task_queue := s.m_task_queue ++ [IoCtxBase.get_node (s.heap x).m_post_task] }
          hm hr2 hlen
        simp only [] at h1 h2 h3 h4 h5 h6 h7 h8 h9 h10
        have hexp : (fun n => timeNode.is_expire n env.now (timeNode.remove_self x s.heap).2)
            = (fun n => timeNode.is_expire n env.now s.heap) := by
          funext n
          exact is_expire_congr n env.now (remove_self_fields x s.heap n).1
        have htask : (fun n => IoCtxBase.get_node ((timeNode.remove_self x s.heap).2 n).m_post_task)
            = (fun n => IoCtxBase.get_node (s.heap n).m_post_task) := by
          funext n
          rw [(remove_self_fields x s.heap n).2]
        rw [hexp] at h2 h3
        rw [htask] at h3
        refine ⟨s', ?_, ?_, ?_, ?_, h5, h6, h7, h8, h9, h10⟩
        · rw [sweep_single_step env fuel s x l hm hr hx]
          exact h1
        · simpa [List.dropWhile, hx] using h2
        · rw [h3]
          simp [List.takeWhile, hx]
        · intro a
          obtain ⟨e1, e2⟩ := h4 a
          obtain ⟨e3, e4⟩ := remove_self_fields x s.heap a
          exact ⟨e1.trans e3, e2.trans e4⟩

/-- With expiries non-decreasing along the list, the expired nodes are exactly
the longest expired run at its front. -/
theorem takeWhile_dropWhile_sorted (E : Nat → TimeStamp) (now : TimeStamp) :
    ∀ l : List Nat, (l.map E).Pairwise (fun a b => a ≤ b) →
      l.takeWhile (fun n => decide (E n < now)) = l.filter (fun n => decide (E n < now)) ∧
      l.dropWhile (fun n => decide (E n < now)) = l.filter (fun n => !decide (E n < now)) := by
  intro l
  induction l with
  | nil => intro _; simp
  | cons x l ih =>
    intro hs
    simp only [List.map_cons, List.pairwise_cons] at hs
    obtain ⟨h1, h2⟩ := ih hs.2
    by_cases hx : E x < now
    · simp [List.takeWhile, List.dropWhile, List.filter, hx, h1, h2]
    · have hall : ∀ y ∈ l, ¬ E y < now := by
        intro y hy hlt
        have := hs.1 (E y) (List.mem_map.mpr ⟨y, hy, rfl⟩)
        exact hx (lt_of_le_of_lt this hlt)
      have hf1 : l.filter (fun n => decide (E n < now)) = [] := by
        apply List.filter_eq_nil_iff.mpr
        intro y hy
        simpa using hall y hy
      have hf2 : l.filter (fun n => !decide (E n < now)) = l := by
        apply List.filter_eq_self.mpr
        intro y hy
        simpa using hall y hy
      simp [List.takeWhile, List.dropWhile, List.filter, hx, hf1, hf2]

/-! ## Reading the trace of a pass -/

theorem lockHeldFrom_append (a b : List Event) : ∀ held,
    lockHeldFrom held (a ++ b) = lockHeldFrom (lockHeldFrom held a) b := by
  induction a with
  | nil => intro held; rfl
  | cons e a ih => intro held; cases e <;> simp [lockHeldFrom, ih]

theorem releasedAtCalls_lock_events (evs tail : List Event)
    (hevs : ∀ e ∈ evs, e.isLockOrWakeup = true) : ∀ held,
    releasedAtCalls held (evs ++ tail) = releasedAtCalls (lockHeldFrom held evs) tail := by
  induction evs with
  | nil => intro held; rfl
  | cons e evs ih =>
    intro held
    have hrest : ∀ e2 ∈ evs, e2.isLockOrWakeup = true :=
      fun e2 h2 => hevs e2 (List.mem_cons_of_mem _ h2)
    have he := hevs e (List.mem_cons_self e evs)
    cases e <;> simp [Event.isLockOrWakeup] at he <;>
      simp [releasedAtCalls, lockHeldFrom, ih hrest]

theorem releasedAtCalls_dispatched (batch : List IoEvent) :
    releasedAtCalls false (dispatched batch) = true := by
  unfold dispatched
  induction batch.filter (fun evt => decide (CallbackGuard ≤ evt.data_ptr)) with
  | nil => rfl
  | cons e l ih => simpa [releasedAtCalls] using ih

theorem releasedAtCalls_wait_tail (evs : List Event) (batch : List IoEvent) (held : Bool)
    (hevs : evs = [] ∨ evs = [Event.wakeup_a_thread]) :
    releasedAtCalls held
      (([Event.unlock, Event.epoll_wait, Event.lock, Event.unlock] ++ evs) ++ dispatched batch)
      = true := by
  rcases hevs with rfl | rfl <;>
    simp [releasedAtCalls, releasedAtCalls_dispatched]

theorem releasedAtCalls_wait_thrown (evs : List Event) (held : Bool)
    (hevs : evs = [] ∨ evs = [Event.wakeup_a_thread]) :
    releasedAtCalls held ([Event.unlock, Event.epoll_wait, Event.lock, Event.unlock] ++ evs)
      = true := by
  rcases hevs with rfl | rfl <;> simp [releasedAtCalls]

/-- The events of one pass in multi-thread mode: the `lock()` at the top, the
lock and wakeup calls of the sweep, and then a tail that starts with `unlock()`
(or is empty, when an exception left the sweep) and in which the lock is not
held at any callback or wait; a pass that ends in `break` ends with `unlock()`. -/
theorem run_iteration_trace (fuel : Nat) (s : IoCtx) (env : Env) (s' : IoCtx)
    (hm : s.k_multiple_thread = true) (hend : (s.run_iteration fuel env).state = some s') :
    ∃ evs tail, s'.trace = s.trace ++ (Event.lock :: evs ++ tail) ∧
      (∀ e ∈ evs, e.isLockOrWakeup = true) ∧
      (∀ held, releasedAtCalls held tail = true) ∧
      (s.run_iteration fuel env = Step.returned s' → tail = [Event.unlock]) := by
  unfold IoCtx.run_iteration at hend ⊢
  simp only [hm, if_true] at hend ⊢
  cases hsw : IoCtx.sweep fuel s.lock env with
  | none => simp [hsw, Step.state] at hend
  | some r =>
    obtain ⟨f1, f2, evs, f3, f4⟩ := sweep_frame env fuel s.lock r hsw
    have hlock : s.lock.trace = s.trace ++ [Event.lock] := rfl
    have hlm : s.lock.k_multiple_thread = true := hm
    rw [hlock] at f3
    rw [hlm] at f1
    cases r with
    | error e =>
      simp only [hsw, Step.state, Option.some.injEq] at hend
      subst hend
      simp only [stateOf] at f3
      refine ⟨evs, [], by rw [f3]; simp, f4, fun _ => rfl, ?_⟩
      simp [hsw]
    | ok s2 =>
      simp only [stateOf] at f1 f2 f3
      simp only [hsw] at hend ⊢
      cases ha : s2.m_abort_requested with
      | true =>
        rw [dequeue_and_run_abort s2 env ha] at hend ⊢
        simp only [Step.state, Option.some.injEq] at hend
        subst hend
        refine ⟨evs, [Event.unlock], by simp [f1, f3], f4, fun _ => rfl, fun _ => rfl⟩
      | false =>
        cases hq : s2.m_task_queue with
        | cons node rest =>
          rw [dequeue_and_run_task s2 env node rest ha hq] at hend ⊢
          simp only [Step.state, Option.some.injEq] at hend
          subst hend
          refine ⟨evs, [Event.unlock,
            Event.task_callback (IoCtxBase.from_node_to_post_task node)],
            by simp [f1, f3], f4, fun _ => rfl, ?_⟩
          intro h
          cases h
        | nil =>
          obtain ⟨evs2, hevs2, hcase⟩ := dequeue_and_run_wait s2 env ha hq
          rcases hcase with ⟨s3, h1, h2⟩ | ⟨s3, _, h1, h2⟩
          · rw [h1] at hend ⊢
            simp only [Step.state, Option.some.injEq] at hend
            subst hend
            refine ⟨evs, ([Event.unlock, Event.epoll_wait, Event.lock, Event.unlock] ++ evs2)
              ++ dispatched (env.epoll_wait.getD []), ?_, f4,
              fun held => releasedAtCalls_wait_tail evs2 _ held hevs2, ?_⟩
            · rw [h2, f1, f3]; simp
            · intro h
              cases h
          · rw [h1] at hend ⊢
            simp only [Step.state, Option.some.injEq] at hend
            subst hend
            refine ⟨evs, [Event.unlock, Event.epoll_wait, Event.lock, Event.unlock] ++ evs2,
              ?_, f4, fun held => releasedAtCalls_wait_thrown evs2 held hevs2, ?_⟩
            · rw [h2, f3]; simp
            · intro h
              cases h

/-- A pass that begins with the abort flag set and whose sweep ends without an
exception ends in `break`: the only calls it makes are those of the sweep and
the closing `unlock()`, so no callback is run and `epoll_wait` is not called. -/
theorem abort_pass_returns (fuel : Nat) (s s2 : IoCtx) (env : Env)
    (ha : s.m_abort_requested = true)
    (hsw : IoCtx.sweep fuel (if s.k_multiple_thread then s.lock else s) env
      = some (Except.ok s2)) :
    s.run_iteration fuel env
      = Step.returned
          { s2 with m_task_queue := s2.m_task_queue.tail,
                    trace := s2.trace ++
                      (if s2.k_multiple_thread then [Event.unlock] else []) } := by
  have hfr := sweep_frame env fuel _ _ hsw
  have ha2 : s2.m_abort_requested = true := by
    have h2 := hfr.2.1
    simp only [stateOf] at h2
    rw [h2]
    cases s.k_multiple_thread <;> simpa [IoCtx.lock] using ha
  unfold IoCtx.run_iteration
  simp only [hsw]
  exact dequeue_and_run_abort s2 env ha2

/-! ## The claims on the run loop -/

/-- C11 at its failing input: a multi-thread engine whose abort flag is set and
whose timer queue holds one node, expired at the sampled time.  The pass calls
`lock()` at its top and, from the sweep, `lock()` again inside `post_task` while
the first is still held; on a spin lock the thread never gets past that call, so
the `unlock(); break;` the trace goes on with is never reached.  In single-thread
mode the same state makes the pass end in `break` with no call at all. -/
theorem C11_abort_with_expired_timer :
    ((IoCtx.run_iteration 2 (engineWithTimers true true [(1, 0)])
        (envOf 10000000001 (some []))).state.map (fun s => s.trace))
      = some [Event.lock, Event.lock, Event.unlock, Event.unlock] ∧
    ((IoCtx.run_iteration 2 (engineWithTimers true true [(1, 0)])
        (envOf 10000000001 (some []))).state.map (fun s => selfRelock s.trace)) = some true ∧
    ((IoCtx.run_iteration 2 (engineWithTimers false true [(1, 0)])
        (envOf 10000000001 (some []))).state.map (fun s => s.trace)) = some [] := by
  decide

/-- C12, as stated, fails: with the abort flag set and the tasks 16 and 32
queued, the pass ends in `break` and the queue holds 32 only; task 16 was popped
before the flag was tested. -/
theorem C12_counterexample :
    (engineWithTasks false true 0 [16, 32]).m_abort_requested = true ∧
    ((IoCtx.run_iteration 1 (engineWithTasks false true 0 [16, 32])
        (envOf 0 (some []))).state.map (fun s => s.m_task_queue)) = some [32] ∧
    ((IoCtx.run_iteration 1 (engineWithTasks false true 0 [16, 32])
        (envOf 0 (some []))).state.map (fun s => s.trace)) = some [] := by
  decide

/-- C12, amended.  The dequeue step pops the head of the task queue before it
reads the abort flag.  When the flag is set the pass ends in `break` (after
`unlock()` in multi-thread mode): the popped task is dropped without being run,
the queue keeps the tasks it held after the sweep except the first, and nothing
else changes (`m_task_queue_size` is not decremented).  When the flag is not set
and a task was popped, that task's callback is run. -/
theorem C12_abort_drops_popped_task (s : IoCtx) (env : Env) :
    (s.m_abort_requested = true →
      s.dequeue_and_run env
        = Step.returned
            { s with m_task_queue := s.m_task_queue.tail,
                     trace := s.trace ++
                       (if s.k_multiple_thread then [Event.unlock] else []) }) ∧
    (∀ node rest, s.m_abort_requested = false → s.m_task_queue = node :: rest →
      ∃ s', s.dequeue_and_run env = Step.next s' ∧ s'.m_task_queue = rest ∧
        s'.trace = s.trace ++ (if s.k_multiple_thread then [Event.unlock] else [])
          ++ [Event.task_callback (IoCtxBase.from_node_to_post_task node)]) := by
  refine ⟨dequeue_and_run_abort s env, ?_⟩
  intro node rest ha hq
  exact ⟨_, dequeue_and_run_task s env node rest ha hq, rfl, rfl⟩

/-- Witness of C12: a multi-thread engine with the abort flag set and two tasks
queued. -/
theorem C12_abort_drops_popped_task_witness :
    IoCtx.dequeue_and_run (engineWithTasks true true 0 [16, 32]) (envOf 0 (some []))
      = Step.returned
          { engineWithTasks true true 0 [16, 32] with
              m_task_queue := [32], trace := [Event.unlock] } :=
  (C12_abort_drops_popped_task (engineWithTasks true true 0 [16, 32])
    (envOf 0 (some []))).1 rfl

/-- C13 (timer sweep).  In single-thread mode, on a well-formed timer queue
holding `l` with expiries non-decreasing front to back, the sweep with sampled
time `env.now` ends (any fuel above the number of nodes is enough) and leaves:
the ring holding exactly the nodes of `l` for which `is_expire(now)` is false, in
their original order; the task queue extended at its tail by the tasks of the
nodes for which `is_expire(now)` is true, in the nodes' front-to-back order; no
expired node in the timer queue; and no lock or wakeup call made. -/
theorem C13_timer_sweep (s : IoCtx) (env : Env) (l : List Nat) (fuel : Nat)
    (hsingle : s.k_multiple_thread = false)
    (hring : Ring s.heap s.m_time_queue.m_head l)
    (hsorted : (l.map (fun n => (s.heap n).m_expire)).Pairwise (fun a b => a ≤ b))
    (hfuel : l.length < fuel) :
    ∃ s', s.sweep fuel env = some (Except.ok s') ∧
      Ring s'.heap s.m_time_queue.m_head
        (l.filter (fun n => !timeNode.is_expire n env.now s.heap)) ∧
      s'.m_task_queue = s.m_task_queue ++
        (l.filter (fun n => timeNode.is_expire n env.now s.heap)).map
          (fun n => IoCtxBase.get_node (s.heap n).m_post_task) ∧
      (∀ n ∈ l.filter (fun n => !timeNode.is_expire n env.now s.heap),
        timeNode.is_expire n env.now s'.heap = false) ∧
      s'.trace = s.trace := by
  obtain ⟨s', h1, h2, h3, h4, h5, _⟩ := sweep_single env l fuel s hsingle hring hfuel
  obtain ⟨t1, t2⟩ := takeWhile_dropWhile_sorted (fun n => (s.heap n).m_expire) env.now l hsorted
  have hfun : (fun n => timeNode.is_expire n env.now s.heap)
      = (fun n => decide ((s.heap n).m_expire < env.now)) := rfl
  rw [hfun] at h2 h3 ⊢
  rw [t2] at h2
  rw [t1] at h3
  refine ⟨s', h1, h2, h3, ?_, h5⟩
  intro n hn
  have hne := (List.mem_filter.mp hn).2
  rw [is_expire_congr n env.now (h4 n).1]
  simpa [timeNode.is_expire] using hne

/-- Witness of C13: three timers with expiries 10 s, 10 s + 5 ns and 20 s; the
sweep at 10 s + 6 ns removes the first two. -/
theorem C13_timer_sweep_witness :
    ∃ s', IoCtx.sweep 4 (engineWithTimers false false [(1, 0), (2, 5), (3, 10000000000)])
        (envOf 10000000006 none) = some (Except.ok s') ∧
      Ring s'.heap 0 [3] ∧ s'.m_task_queue = [101, 102] :=
  match C13_timer_sweep (engineWithTimers false false [(1, 0), (2, 5), (3, 10000000000)])
      (envOf 10000000006 none) [1, 2, 3] 4 rfl (by decide) (by decide) (by decide) with
  | ⟨s', h1, h2, h3, _, _⟩ => ⟨s', h1, h2, h3⟩

/-- C14 (event dispatch).  The dispatch loop over a returned batch adds to the
trace exactly the calls `dispatched batch` and changes nothing else: one
`callback->callback(evt)` for each event whose pointer is at or above the guard
address 8, in the order of the batch, each with its own event, and none for an
event whose pointer is below the guard.  Accordingly, a pass that waited, got
`batch` from `epoll_wait` and was not left by an exception made exactly these
I/O callback calls. -/
theorem C14_event_dispatch (s : IoCtx) (batch : List IoEvent) :
    s.dispatch batch = { s with trace := s.trace ++ dispatched batch } ∧
    ioCallbacks (dispatched batch)
      = (batch.filter (fun evt => decide (8 ≤ evt.data_ptr))).map
          (fun evt => (evt.data_ptr, evt)) ∧
    (∀ env s', env.epoll_wait = some batch → s.m_abort_requested = false →
      s.m_task_queue = [] → s.dequeue_and_run env = Step.next s' →
      ∃ evs, s'.trace = s.trace ++ evs ∧
        ioCallbacks evs
          = (batch.filter (fun evt => decide (8 ≤ evt.data_ptr))).map
              (fun evt => (evt.data_ptr, evt))) := by
  refine ⟨dispatch_eq batch s, ioCallbacks_dispatched batch, ?_⟩
  intro env s' hw ha hq hrun
  obtain ⟨evs2, hevs2, hcase⟩ := dequeue_and_run_wait s env ha hq
  rcases hcase with ⟨s3, h1, h2⟩ | ⟨s3, _, h1, _⟩
  · rw [h1] at hrun
    cases hrun
    refine ⟨(if s.k_multiple_thread then
        [Event.unlock, Event.epoll_wait, Event.lock, Event.unlock] ++ evs2
        else [Event.epoll_wait]) ++ dispatched (env.epoll_wait.getD []),
      by rw [h2, List.append_assoc], ?_⟩
    rw [ioCallbacks_append, hw]
    have hd := ioCallbacks_dispatched batch
    simp only [Option.getD_some]
    rw [hd]
    cases s.k_multiple_thread
    · simp [ioCallbacks, CallbackGuard]
    · rcases hevs2 with rfl | rfl <;> simp [ioCallbacks, CallbackGuard]
  · rw [h1] at hrun
    cases hrun

/-- Witness of C14: a single-thread pass that waits and gets a wakeup event
between two I/O events. -/
theorem C14_event_dispatch_witness :
    (IoCtx.dispatch (engineWithTasks false false 0 []) [⟨1, 4096⟩, ⟨1, 1⟩, ⟨4, 8192⟩]).trace
      = [Event.io_callback 4096 ⟨1, 4096⟩, Event.io_callback 8192 ⟨4, 8192⟩] :=
  congrArg IoCtx.trace
    (C14_event_dispatch (engineWithTasks false false 0 []) [⟨1, 4096⟩, ⟨1, 1⟩, ⟨4, 8192⟩]).1

/-- C15 (callback dispatch).  For a callback record constructed for the handler
type `S`, `callback(evt)` makes exactly one call, `S::on_callback`, on that
object and with that event; and the function pointer installed by the
constructor is the same for every object of type `S`. -/
theorem C15_callback_dispatch (S this : Nat) (evt : IoEvent) (h : CallbackHeap) :
    Callback.callback this evt (CallbackImplBase.ctor S this h) = some [⟨S, this, evt⟩] ∧
    ∀ (other : Nat) (h2 : CallbackHeap),
      ((CallbackImplBase.ctor S other h2) other).m_callback
        = ((CallbackImplBase.ctor S this h) this).m_callback := by
  refine ⟨?_, ?_⟩
  · simp [Callback.callback, CallbackImplBase.ctor, CallbackImplBase.invoke_impl_callback]
  · intro other h2
    simp [CallbackImplBase.ctor]

/-- C17 (idle-wakeup rule).  With the task counter below `SIZE_MAX`: the
multi-thread block after `epoll_wait` locks and unlocks once and then calls
`wakeup_a_thread` at most once, and only if the abort flag is set or the batch
contained a wakeup event and `task_queue_size + effective_event > 1`; when
`epoll_wait` returned a batch and some thread is still idle after this thread
left the idle count, it calls it exactly when that condition holds. -/
theorem C17_idle_wakeup_rule (s : IoCtx) (env : Env)
    (hsize : s.m_task_queue_size + 1 < 2 ^ 64) :
    ∃ evs, (stateOf (s.after_wait env)).trace = s.trace ++ [Event.lock, Event.unlock] ++ evs ∧
      (evs = [] ∨ evs = [Event.wakeup_a_thread]) ∧
      (evs = [Event.wakeup_a_thread] → wakeupCondition s env) ∧
      (env.epoll_wait ≠ none → 0 < (stateOf (s.after_wait env)).m_thread_waiting →
        (evs = [Event.wakeup_a_thread] ↔ wakeupCondition s env)) := by
  obtain ⟨evs, hst, hevs, hiff⟩ := after_wait_state s env
  have hcond : ∀ batch, env.epoll_wait = some batch →
      ((s.m_abort_requested = true ∨
          ((scan batch).2 ≠ 0 ∧ (s.m_task_queue_size + (scan batch).1) % 2 ^ 64 > 1))
        ↔ wakeupCondition s env) := by
    intro batch hw
    have hs1 : (scan batch).1 = if ∃ evt ∈ batch, CallbackGuard ≤ evt.data_ptr then 1 else 0 := by
      rw [scan_eq_naive]; rfl
    have hs2 : (scan batch).2 = if ∃ evt ∈ batch, evt.data_ptr < CallbackGuard then 1 else 0 := by
      rw [scan_eq_naive]; rfl
    have hle : (scan batch).1 ≤ 1 := by
      rw [hs1]; split <;> simp
    have hmod : (s.m_task_queue_size + (scan batch).1) % 2 ^ 64
        = s.m_task_queue_size + (scan batch).1 := Nat.mod_eq_of_lt (by omega)
    have h2 : (scan batch).2 ≠ 0 ↔ ∃ evt ∈ batch, evt.data_ptr < CallbackGuard := by
      rw [hs2]; split <;> simp_all
    unfold wakeupCondition
    rw [hw, hmod, h2, hs1]
    simp only [Option.getD_some, gt_iff_lt]
  refine ⟨evs, by rw [hst], hevs, ?_, ?_⟩
  · intro he
    obtain ⟨batch, hw, _, hor⟩ := hiff.mp he
    exact (hcond batch hw).mp hor
  · intro hw hidle
    rw [hst] at hidle
    simp only [] at hidle
    cases hwait : env.epoll_wait with
    | none => exact absurd hwait hw
    | some batch =>
      constructor
      · intro he
        obtain ⟨b, hb, _, hor⟩ := hiff.mp he
        exact (hcond b hb).mp hor
      · intro hc
        exact hiff.mpr ⟨batch, hwait, Nat.pos_iff_ne_zero.mp hidle, (hcond batch hwait).mpr hc⟩

/-- Witness of C17: two other threads idle, two tasks counted, and a batch with
a wakeup event and an I/O event; one more thread is woken. -/
theorem C17_idle_wakeup_rule_witness :
    ∃ evs, (stateOf (IoCtx.after_wait (engineWithTasks true false 3 [16, 32])
          (envOf 0 (some [⟨1, 1⟩, ⟨1, 4096⟩])))).trace
        = [] ++ [Event.lock, Event.unlock] ++ evs ∧
      (evs = [] ∨ evs = [Event.wakeup_a_thread]) ∧
      (evs = [Event.wakeup_a_thread] →
        wakeupCondition (engineWithTasks true false 3 [16, 32])
          (envOf 0 (some [⟨1, 1⟩, ⟨1, 4096⟩]))) ∧
      (envOf 0 (some [⟨1, 1⟩, ⟨1, 4096⟩])).epoll_wait ≠ none ∧
      0 < (stateOf (IoCtx.after_wait (engineWithTasks true false 3 [16, 32])
          (envOf 0 (some [⟨1, 1⟩, ⟨1, 4096⟩])))).m_thread_waiting :=
  match C17_idle_wakeup_rule (engineWithTasks true false 3 [16, 32])
      (envOf 0 (some [⟨1, 1⟩, ⟨1, 4096⟩])) (by decide) with
  | ⟨evs, h1, h2, h3, _⟩ => ⟨evs, h1, h2, h3, by decide, by decide⟩

/-- C18 (event classification).  For every batch the nested-loop scan equals the
two-existentials definition: `wakeup_event` is 1 if and only if some event of
the batch has its pointer below the guard address 8 and is 0 otherwise,
`effective_event` is 1 if and only if some event has its pointer at or above it
and is 0 otherwise; both are 0 for an empty batch; and the result is the same
for every order of the events. -/
theorem C18_event_classification (batch : List IoEvent) :
    scan batch = scan_naive batch ∧
    ((scan batch).2 = 1 ↔ ∃ evt ∈ batch, evt.data_ptr < 8) ∧
    ((scan batch).2 = 0 ∨ (scan batch).2 = 1) ∧
    ((scan batch).1 = 1 ↔ ∃ evt ∈ batch, 8 ≤ evt.data_ptr) ∧
    ((scan batch).1 = 0 ∨ (scan batch).1 = 1) ∧
    scan [] = (0, 0) ∧
    ∀ batch2, List.Perm batch batch2 → scan batch2 = scan batch := by
  have hs1 : (scan batch).1 = if ∃ evt ∈ batch, CallbackGuard ≤ evt.data_ptr then 1 else 0 := by
    rw [scan_eq_naive]; rfl
  have hs2 : (scan batch).2 = if ∃ evt ∈ batch, evt.data_ptr < CallbackGuard then 1 else 0 := by
    rw [scan_eq_naive]; rfl
  refine ⟨scan_eq_naive batch, ?_, ?_, ?_, ?_, rfl, ?_⟩
  · rw [hs2]; split <;> simp_all [CallbackGuard]
  · rw [hs2]; split <;> simp
  · rw [hs1]; split <;> simp_all [CallbackGuard]
  · rw [hs1]; split <;> simp
  · intro batch2 hp
    rw [scan_eq_naive, scan_eq_naive, scan_naive_perm hp]

/-- C19 (lock never held across callbacks).  In multi-thread mode, in every pass
through the loop body that ends, the thread does not hold the queue lock at any
task callback, at the `epoll_wait` call or at any I/O callback of the pass, and
it does not hold it when the pass ends in `break` and `run` returns. -/
theorem C19_lock_released_at_calls (fuel : Nat) (s : IoCtx) (env : Env) (s' : IoCtx)
    (hm : s.k_multiple_thread = true)
    (hend : (s.run_iteration fuel env).state = some s') :
    ∃ evs, s'.trace = s.trace ++ evs ∧
      releasedAtCalls (lockHeld s.trace) evs = true ∧
      (s.run_iteration fuel env = Step.returned s' → lockHeld s'.trace = false) := by
  obtain ⟨evs, tail, h1, h2, h3, h4⟩ := run_iteration_trace fuel s env s' hm hend
  refine ⟨Event.lock :: evs ++ tail, h1, ?_, ?_⟩
  · have := releasedAtCalls_lock_events (Event.lock :: evs) tail (by
      intro e he
      rcases List.mem_cons.mp he with rfl | h5
      · rfl
      · exact h2 e h5) (lockHeld s.trace)
    rw [this]
    exact h3 _
  · intro hret
    rw [h1, h4 hret]
    unfold lockHeld
    rw [← List.append_assoc, lockHeldFrom_append]
    rfl

/-- Witness of C19: a multi-thread pass that finds a task and runs it. -/
theorem C19_lock_released_at_calls_witness :
    ∃ evs, (engineWithTasks true false 0 [16]).trace ++ [Event.lock, Event.unlock,
          Event.task_callback 16]
        = (engineWithTasks true false 0 [16]).trace ++ evs ∧
      releasedAtCalls (lockHeld (engineWithTasks true false 0 [16]).trace) evs = true :=
  match C19_lock_released_at_calls 1 (engineWithTasks true false 0 [16]) (envOf 0 none)
      { engineWithTasks true false 0 [16] with
          m_task_queue := [], m_task_queue_size := 0,
          trace := [Event.lock, Event.unlock, Event.task_callback 16] }
      rfl rfl with
  | ⟨evs, h1, h2, _⟩ => ⟨evs, h1, h2⟩

/-- C20 at its failing input: a multi-thread engine whose timer queue holds one
node, expired at the sampled time.  The pass calls `lock()` at its top, and the
sweep calls `post_task`, which calls `lock()` again before any `unlock()`: the
second call is made while the thread already holds the lock. -/
theorem C20_relock_in_sweep :
    ((IoCtx.run_iteration 2 (engineWithTimers true false [(1, 0)])
        (envOf 10000000001 (some []))).state.map (fun s => s.trace.take 2))
      = some [Event.lock, Event.lock] ∧
    ((IoCtx.run_iteration 2 (engineWithTimers true false [(1, 0)])
        (envOf 10000000001 (some []))).state.map (fun s => selfRelock s.trace)) = some true ∧
    selfRelock (stateOf (IoCtx.post_task (engineWithTasks true false 0 []).lock 16 0)).trace
      = true := by
  decide

/-! ## Ring well-formedness and double removal -/

/-- In a ring the links are mutually inverse at the head and at every linked
node. -/
theorem ring_inverse_links {h : Heap} {head : Nat} {l : List Nat} (hr : Ring h head l) :
    ∀ x ∈ head :: l, (h (h x).m_next).m_prev = x ∧ (h (h x).m_prev).m_next = x := by
  intro x hx
  rcases List.mem_cons.mp hx with rfl | hxl
  · obtain ⟨_, hnext, hprev⟩ := hr
    constructor
    · have h1 : (h x).m_next = l.headD x := path_headD hnext
      have h2 := path_lastFrom l.reverse x x hprev
      rw [lastFrom_reverse] at h2
      rw [h1]
      exact h2
    · have h1 : (h x).m_prev = l.reverse.headD x := path_headD hprev
      rw [headD_reverse] at h1
      have h2 := path_lastFrom l x x hnext
      rw [h1]
      exact h2
  · obtain ⟨l1, l2, hl, _⟩ := List.eq_append_cons_of_mem hxl
    subst hl
    obtain ⟨hp, hn⟩ := ring_links hr
    obtain ⟨_, hnext, hprev⟩ := hr
    have hrev : (l1 ++ x :: l2).reverse = l2.reverse ++ x :: l1.reverse := by simp
    constructor
    · rw [hrev, path_mid] at hprev
      have h2 := path_lastFrom l2.reverse head x hprev.1
      rw [lastFrom_reverse] at h2
      rw [hn]
      exact h2
    · rw [path_mid] at hnext
      have h2 := path_lastFrom l1 head x hnext.1
      rw [hp]
      exact h2

/-- C22 (ring well-formedness).  The well-formed ring `Ring h head l` (walking
`m_next` from the sentinel visits the pairwise distinct nodes `l` once each and
returns to the sentinel, and `m_prev` walks the same nodes backwards) gives
`x.m_next.m_prev = x` and `x.m_prev.m_next = x` for the head and every linked
node; it holds for a newly constructed queue, and it is preserved by `push` of a
node that is not linked in the queue, by `pop`, and by `remove_self` of a linked
node. -/
theorem C22_ring_well_formed (q : timeQueue) (h h0 : Heap) (l : List Nat) (n : Nat)
    (t : TimeStamp) (hr : Ring h q.m_head l) :
    (∀ x ∈ q.m_head :: l, (h (h x).m_next).m_prev = x ∧ (h (h x).m_prev).m_next = x) ∧
    Ring (q.ctor h0) q.m_head [] ∧
    (n ∉ q.m_head :: l → Ring (q.push n t h) q.m_head (l ++ [n])) ∧
    Ring (q.pop h) q.m_head l.tail ∧
    (n ∈ l → Ring (timeNode.remove_self n h).2 q.m_head (l.erase n)) :=
  ⟨ring_inverse_links hr, ring_ctor q h0, ring_push n t hr, ring_pop hr,
    fun hn => ring_remove hr hn⟩

/-- Witness of C22: a queue holding the nodes 1 and 2; node 3 is pushed. -/
theorem C22_ring_well_formed_witness :
    Ring (timeQueue.push ⟨3, 0⟩ 3 9 (pushAll ⟨3, 0⟩ [(1, 5), (2, 6)]
      (timeQueue.ctor ⟨3, 0⟩ freshHeap))) 0 [1, 2, 3] :=
  (C22_ring_well_formed ⟨3, 0⟩ (pushAll ⟨3, 0⟩ [(1, 5), (2, 6)]
    (timeQueue.ctor ⟨3, 0⟩ freshHeap)) freshHeap [1, 2] 3 9 (by decide)).2.2.1 (by decide)

/-- C23 (immediate double removal).  For a node `n` linked in a well-formed
queue, a second `remove_self()` right after the first changes nothing: the
memory, hence every link of every other node, is exactly as after the first
call, and the queue holds the other nodes in order.  Hence in the sweep, where
only `post_task` (which does not touch the timer nodes) runs between `pop()`
and `time_node->remove_self()` on the node that was at the front, that one node
is removed and the remaining nodes stay linked in order. -/
theorem C23_double_removal (q : timeQueue) (h : Heap) (l1 l2 : List Nat) (n : Nat)
    (hr : Ring h q.m_head (l1 ++ n :: l2)) :
    (timeNode.remove_self n (timeNode.remove_self n h).2).2 = (timeNode.remove_self n h).2 ∧
    Ring (timeNode.remove_self n (timeNode.remove_self n h).2).2 q.m_head (l1 ++ l2) ∧
    (l1 = [] → ∀ (s : IoCtx) (task : Nat) (epoll_ctl : Int),
      s.heap = q.pop h →
      (timeNode.remove_self n (stateOf (s.post_task task epoll_ctl)).heap).2
        = (timeNode.remove_self n h).2 ∧
      Ring (timeNode.remove_self n (stateOf (s.post_task task epoll_ctl)).heap).2
        q.m_head l2) := by
  have hagain : (timeNode.remove_self n (timeNode.remove_self n h).2).2
      = (timeNode.remove_self n h).2 :=
    remove_self_of_bypassed _ n (remove_self_links h n).2.2
  refine ⟨hagain, ?_, ?_⟩
  · rw [hagain]
    exact ring_remove_mid hr
  · intro hl1 s task epoll_ctl hs
    subst hl1
    simp only [List.nil_append] at hr
    obtain ⟨_, hpop2⟩ := pop_then_remove_self hr
    have hheap := (post_task_frame s task epoll_ctl).2.2.1
    rw [hheap, hs, hpop2]
    refine ⟨rfl, ?_⟩
    have := @ring_remove_mid h q.m_head [] l2 n hr
    simpa using this

/-- Witness of C23: the front node of a three-node queue, removed by `pop()`,
then `post_task`, then `remove_self()`. -/
theorem C23_double_removal_witness :
    Ring (timeNode.remove_self 1 (timeNode.remove_self 1 (pushAll ⟨3, 0⟩
      [(1, 5), (2, 6), (3, 7)] (timeQueue.ctor ⟨3, 0⟩ freshHeap))).2).2 0 [2, 3] :=
  (C23_double_removal ⟨3, 0⟩ (pushAll ⟨3, 0⟩ [(1, 5), (2, 6), (3, 7)]
    (timeQueue.ctor ⟨3, 0⟩ freshHeap)) [] [2, 3] 1 (by decide)).2.1

/-! ## The task counter -/

theorem post_task_counter (s : IoCtx) (task : Nat) (epoll_ctl : Int)
    (hm : s.k_multiple_thread = true) (hsize : s.m_task_queue_size + 1 < 2 ^ 64) :
    (stateOf (s.post_task task epoll_ctl)).m_task_queue.length = s.m_task_queue.length + 1 ∧
    (stateOf (s.post_task task epoll_ctl)).m_task_queue_size = s.m_task_queue_size + 1 := by
  by_cases hw : 0 < s.m_thread_waiting
  · by_cases he : epoll_ctl < 0 <;>
      simp [IoCtx.post_task, IoCtx.wakeup_a_thread, IoCtx.lock, IoCtx.unlock, Queue.push,
        stateOf, hm, hw, he] <;> omega
  · simp [IoCtx.post_task, IoCtx.lock, IoCtx.unlock, Queue.push, stateOf, hm, hw]
    omega

/-- The sweep keeps the counter equal to the queue length in multi-thread mode:
each task it posts is counted. -/
theorem sweep_counter (env : Env) : ∀ (fuel : Nat) (s : IoCtx) (r : Except IoCtx IoCtx),
    s.sweep fuel env = some r → s.k_multiple_thread = true → counterInv s →
    s.m_task_queue.length + fuel < 2 ^ 64 →
    counterInv (stateOf r) ∧
      (stateOf r).m_task_queue.length ≤ s.m_task_queue.length + fuel := by
  intro fuel
  induction fuel with
  | zero => intro s r h; simp [IoCtx.sweep] at h
  | succ fuel ih =>
    intro s r h hm hinv hb
    unfold IoCtx.sweep at h
    split at h
    · simp only [] at h
      split at h
      · cases h
        exact ⟨hinv, Nat.le_add_right _ _⟩
      · have hm1 : (IoCtx.mk s.k_multiple_thread s.m_thread_waiting s.m_task_queue_size
            s.m_task_queue s.m_time_queue s.m_abort_requested (s.m_time_queue.pop s.heap)
            s.trace).k_multiple_thread = true := hm
        have hs1 : s.m_task_queue_size + 1 < 2 ^ 64 := by
          unfold counterInv at hinv
          omega
        obtain ⟨c1, c2⟩ := post_task_counter
          { s with heap := s.m_time_queue.pop s.heap }
          ((s.m_time_queue.pop s.heap) (s.m_time_queue.front s.heap)).m_post_task
          (env.epoll_ctl s.trace.length) hm1 hs1
        obtain ⟨f1, _⟩ := post_task_frame
          { s with heap := s.m_time_queue.pop s.heap }
          ((s.m_time_queue.pop s.heap) (s.m_time_queue.front s.heap)).m_post_task
          (env.epoll_ctl s.trace.length)
        simp only [] at c1 c2 f1
        split at h
        · rename_i e hpt
          cases h
          rw [hpt] at c1 c2
          simp only [stateOf] at c1 c2 ⊢
          unfold counterInv at hinv ⊢
          exact ⟨by omega, by omega⟩
        · rename_i s2 hpt
          rw [hpt] at c1 c2 f1
          simp only [stateOf] at c1 c2 f1
          have hrec := ih _ r h (f1.trans hm)
            (by unfold counterInv at hinv ⊢; simp only []; omega)
            (by simp only []; omega)
          simp only [] at hrec
          exact ⟨hrec.1, by omega⟩
    · cases h
      exact ⟨hinv, Nat.le_add_right _ _⟩

/-- The waiting branch in multi-thread mode leaves the task queue empty and the
counter as it was. -/
theorem dequeue_and_run_wait_counter (s : IoCtx) (env : Env) (s' : IoCtx)
    (hm : s.k_multiple_thread = true) (ha : s.m_abort_requested = false)
    (hq : s.m_task_queue = []) (hend : (s.dequeue_and_run env).state = some s') :
    s'.m_task_queue = [] ∧ s'.m_task_queue_size = s.m_task_queue_size := by
  obtain ⟨evs, hst, _, _⟩ := after_wait_state
    { s with m_task_queue := [], m_thread_waiting := (s.m_thread_waiting + 1) % 2 ^ 64,
             trace := s.trace ++ [Event.unlock] ++ [Event.epoll_wait] } env
  have hrun := dequeue_and_run_wait_multi s env ha hq hm
  cases haw : IoCtx.after_wait
    { s with m_task_queue := [], m_thread_waiting := (s.m_thread_waiting + 1) % 2 ^ 64,
             trace := s.trace ++ [Event.unlock] ++ [Event.epoll_wait] } env with
  | error e =>
    rw [haw] at hst hrun
    simp only [stateOf] at hst
    rw [hrun] at hend
    simp only [Step.state, Option.some.injEq] at hend
    subst hend
    rw [hst]
    exact ⟨rfl, rfl⟩
  | ok s4 =>
    rw [haw] at hst hrun
    simp only [stateOf] at hst
    rw [hrun] at hend
    simp only [Step.state, Option.some.injEq] at hend
    subst hend
    rw [dispatch_eq, hst]
    exact ⟨rfl, rfl⟩

/-- C21 (task counter invariant).  In multi-thread mode, from a state in which
`m_task_queue_size` equals the number of queued tasks (and far from `SIZE_MAX`):
`post_task` adds one to both, so they are equal again when it has unlocked; a
dequeue in `run()` that finds a task while the abort flag is not set removes one
from both; and a whole pass through the loop body that begins with the abort
flag not set (sweep, dequeue, task callback or wait and dispatch) ends with the
two equal, whichever way it ends. -/
theorem C21_task_counter (s : IoCtx) (fuel : Nat) (env : Env) (task : Nat) (epoll_ctl : Int)
    (hm : s.k_multiple_thread = true) (hinv : counterInv s)
    (hbound : s.m_task_queue.length + fuel + 1 < 2 ^ 64) :
    (counterInv (stateOf (s.post_task task epoll_ctl)) ∧
      (stateOf (s.post_task task epoll_ctl)).m_task_queue.length
        = s.m_task_queue.length + 1 ∧
      (stateOf (s.post_task task epoll_ctl)).m_task_queue_size
        = s.m_task_queue_size + 1) ∧
    (∀ node rest, s.m_abort_requested = false → s.m_task_queue = node :: rest →
      ∃ s', s.dequeue_and_run env = Step.next s' ∧ counterInv s' ∧
        s'.m_task_queue.length + 1 = s.m_task_queue.length ∧
        s'.m_task_queue_size + 1 = s.m_task_queue_size) ∧
    (s.m_abort_requested = false →
      ∀ s', (s.run_iteration fuel env).state = some s' → counterInv s') := by
  have hdeq : ∀ (s2 : IoCtx) (node : Nat) (rest : List Nat),
      s2.k_multiple_thread = true → counterInv s2 → s2.m_task_queue.length < 2 ^ 64 →
      s2.m_abort_requested = false → s2.m_task_queue = node :: rest →
      ∃ s', s2.dequeue_and_run env = Step.next s' ∧ counterInv s' ∧
        s'.m_task_queue.length + 1 = s2.m_task_queue.length ∧
        s'.m_task_queue_size + 1 = s2.m_task_queue_size := by
    intro s2 node rest hm2 hinv2 hb2 ha2 hq2
    refine ⟨_, dequeue_and_run_task s2 env node rest ha2 hq2, ?_, ?_, ?_⟩
    · unfold counterInv at hinv2 ⊢
      simp only [hm2, if_true]
      rw [hq2] at hinv2 hb2
      simp only [List.length_cons] at hinv2 hb2
      omega
    · simp [hq2]
    · unfold counterInv at hinv2
      simp only [hm2, if_true]
      rw [hq2] at hinv2 hb2
      simp only [List.length_cons] at hinv2 hb2
      omega
  refine ⟨?_, ?_, ?_⟩
  · obtain ⟨c1, c2⟩ := post_task_counter s task epoll_ctl hm
      (by unfold counterInv at hinv; omega)
    refine ⟨?_, c1, c2⟩
    unfold counterInv at hinv ⊢
    omega
  · intro node rest ha hq
    exact hdeq s node rest hm hinv (by omega) ha hq
  · intro ha s' hend
    unfold IoCtx.run_iteration at hend
    simp only [hm, if_true] at hend
    cases hsw : IoCtx.sweep fuel s.lock env with
    | none => simp [hsw, Step.state] at hend
    | some r =>
      have hlm : s.lock.k_multiple_thread = true := hm
      have hlinv : counterInv s.lock := hinv
      have hlb : s.lock.m_task_queue.length + fuel < 2 ^ 64 := by
        have : s.lock.m_task_queue = s.m_task_queue := rfl
        rw [this]
        omega
      obtain ⟨g1, g2⟩ := sweep_counter env fuel s.lock r hsw hlm hlinv hlb
      obtain ⟨f1, f2, _⟩ := sweep_frame env fuel s.lock r hsw
      have hlq : s.lock.m_task_queue = s.m_task_queue := rfl
      have hla : s.lock.m_abort_requested = false := ha
      rw [hlq] at g2
      rw [hlm] at f1
      rw [hla] at f2
      cases r with
      | error e =>
        simp only [hsw, Step.state, Option.some.injEq] at hend
        subst hend
        exact g1
      | ok s2 =>
        simp only [stateOf] at g1 g2 f1 f2
        simp only [hsw] at hend
        cases hq : s2.m_task_queue with
        | cons node rest =>
          obtain ⟨s3, h1, h2, _⟩ := hdeq s2 node rest f1 g1 (by omega) f2 hq
          rw [h1] at hend
          simp only [Step.state, Option.some.injEq] at hend
          subst hend
          exact h2
        | nil =>
          obtain ⟨h1, h2⟩ := dequeue_and_run_wait_counter s2 env s' f1 f2 hq hend
          unfold counterInv at g1 ⊢
          rw [h1, h2, g1, hq]

/-- Witness of C21: a multi-thread engine with two counted tasks queued. -/
theorem C21_task_counter_witness :
    counterInv (stateOf (IoCtx.post_task (engineWithTasks true false 1 [16, 32]) 48 0)) ∧
    (stateOf (IoCtx.post_task (engineWithTasks true false 1 [16, 32]) 48 0)).m_task_queue.length
      = 2 + 1 ∧
    (stateOf (IoCtx.post_task (engineWithTasks true false 1 [16, 32]) 48 0)).m_task_queue_size
      = 2 + 1 :=
  (C21_task_counter (engineWithTasks true false 1 [16, 32]) 1 (envOf 0 (some [])) 48 0
    rfl (by decide) (by decide)).1

end tinyasync
